import Mathlib

/-!
GraphChromatic: greedy colouring of a textual adjacency list

A shallow embedding of `src/ChromaticNumber/graph.cpp` / `graph.hpp`.

* A `Graph` is its `m_nodes` vector.  A `NodePtr` is a natural number, the
  position of the node in that vector (every `shared_ptr<Node>` the program
  ever holds was handed out by `Graph::getNodeOrCreateIt`, which stores it in
  `m_nodes`).
* `unsigned int` is a natural number, the two additions of
  `Node::minimumValue` are taken modulo `2 ^ 32`.
* The recursion of `Node::applyChromatic` is driven by a fuel counter that
  bounds the nesting depth; running out of fuel is `none`.
-/

namespace GraphChromatic

/-! ## Data model (graph.hpp) -/

/-- A `Node` of graph.hpp: `m_name`, `m_value` (0 means no colour yet) and the
`m_neighbours` vector, whose entries are positions in the owning graph. -/
structure Node where
  m_name : String
  m_value : Nat
  m_neighbours : List Nat
  deriving DecidableEq, Repr

/-- A `Graph` of graph.hpp, that is its `m_nodes` vector. -/
abbrev Graph := List Node

/-- The width of `unsigned int`, as a modulus. -/
def UINT_RANGE : Nat := 2 ^ 32

/-- `Node::Node(name)`, the value defaulted to 0: a fresh node has no colour
and no neighbour. -/
def Node.new (name : String) : Node :=
  { m_name := name, m_value := 0, m_neighbours := [] }

/-- `Node::name()`. -/
def Node.name (n : Node) : String := n.m_name

/-- `Node::value()`. -/
def Node.value (n : Node) : Nat := n.m_value

/-- `Node::hasValue()`: `m_value != 0`. -/
def Node.hasValue (n : Node) : Bool := n.m_value != 0

/-- `Node::neighbours()`. -/
def Node.neighbours (n : Node) : List Nat := n.m_neighbours

/-- Dereferencing a pointer: the node stored at that position.  Positions
outside the vector do not occur in a graph built by the program; they read as
a nameless, colourless node without neighbours. -/
def Graph.deref (g : Graph) (p : Nat) : Node := g.getD p (Node.new "")

/-- The assignment `m_value = value` on the node at `p`. -/
def Graph.setValue (g : Graph) (p : Nat) (value : Nat) : Graph :=
  g.set p { g.deref p with m_value := value }

/-- The call `m_neighbours.push_back(node)` on the node at `p`. -/
def Graph.pushNeighbour (g : Graph) (p : Nat) (node : Nat) : Graph :=
  g.set p { g.deref p with m_neighbours := (g.deref p).m_neighbours ++ [node] }

/-! ## Node (graph.cpp, lines 13-72) -/

/-- `Node::isNeighbour`: `find_if` over `m_neighbours` for an entry with the
name of `node`. -/
def Node.isNeighbour (g : Graph) (self node : Nat) : Bool :=
  (g.deref self).m_neighbours.any
    (fun node_comp => (g.deref node).name == (g.deref node_comp).name)

/-- `Node::addNeighbour`: the graph after the call and the returned flag. -/
def Node.addNeighbour (g : Graph) (self node : Nat) : Graph × Bool :=
  if Node.isNeighbour g self node then (g, false)
  else (g.pushNeighbour self node, true)

/-- The scanning loop of `Node::minimumValue` (lines 59-69) over the sorted
values: `start` is advanced along a contiguous run, `break` ends the scan. -/
def scanValues : Nat → List Nat → Nat
  | start, [] => start
  | start, value :: rest =>
    if value > start then
      if value = (start + 1) % UINT_RANGE then scanValues ((start + 1) % UINT_RANGE) rest
      else start
    else scanValues start rest

/-- The body of `Node::minimumValue` on the collected `close_values`:
`std::sort`, the scan from `start = 0`, and `return start + 1`. -/
def minimumOf (close_values : List Nat) : Nat :=
  (scanValues 0 (close_values.insertionSort (· ≤ ·)) + 1) % UINT_RANGE

/-- `Node::minimumValue`. -/
def Node.minimumValue (g : Graph) (self : Nat) : Nat :=
  minimumOf ((g.deref self).m_neighbours.map (fun neighbour => (g.deref neighbour).value))

/-- Lines 35-39 of `Node::applyChromatic`: give the node its minimal value if
it has none. -/
def Node.assignIfNeeded (g : Graph) (self : Nat) : Graph :=
  if (g.deref self).hasValue then g
  else g.setValue self (Node.minimumValue g self)

/-- `Node::applyChromatic`.  `fuel` is the nesting depth still allowed: a
call needs one unit and passes the rest on to its recursive calls. -/
def Node.applyChromatic : Nat → Graph → Nat → Option Graph
  | 0, _, _ => none
  | fuel + 1, g, self =>
    (g.deref self).m_neighbours.foldlM
      (fun acc neighbour =>
        if (acc.deref neighbour).hasValue then some acc
        else Node.applyChromatic fuel acc neighbour)
      (Node.assignIfNeeded g self)

/-! ## Graph (graph.cpp, lines 74-156) -/

/-- `Graph::applyChromatic`: nothing on an empty graph, otherwise the recursion
from `m_nodes.front()`.  The nesting depth allowed is the number of nodes,
which is always enough (`graph_applyChromatic_total`); allowing more never
changes the result (`applyChromatic_fuel_mono`). -/
def Graph.applyChromatic (g : Graph) : Option Graph :=
  if g.isEmpty then some g
  else Node.applyChromatic g.length g 0

/-- `Graph::findNode`: the first node with that name, if any. -/
def Graph.findNode (g : Graph) (name : String) : Option Nat :=
  g.findIdx? (fun node => name == node.name)

/-- `Graph::getNodeOrCreateIt`: the graph after the call and the returned
pointer. -/
def Graph.getNodeOrCreateIt (g : Graph) (name : String) : Graph × Nat :=
  match g.findNode name with
  | some node => (g, node)
  | none => (g ++ [Node.new name], g.length)

/-- `boost::split(result, input, boost::is_any_of(sep))` for a one-character
separator set (token compression off): one token more than there are
separators, empty tokens kept. -/
def split (sep : Char) : List Char → List (List Char)
  | [] => [[]]
  | c :: cs =>
    if c = sep then [] :: split sep cs
    else
      match split sep cs with
      | token :: tokens => (c :: token) :: tokens
      | [] => [[c]]

/-- Lines 129-130 of `Graph::createGraph`: the loop over the neighbour names
of one line. -/
def addNeighbours (g : Graph) (node : Nat) (neighbour_names : List (List Char)) : Graph :=
  neighbour_names.foldl
    (fun acc neighbour_name =>
      let r := Graph.getNodeOrCreateIt acc (String.mk neighbour_name)
      (Node.addNeighbour r.1 node r.2).1)
    g

/-- Lines 117-130 of `Graph::createGraph`: the body of the loop over the
lines.  `line.find(':')` is the end of the longest prefix without `':'`. -/
def addLine (g : Graph) (line : List Char) : Graph :=
  match line.span (fun c => c != ':') with
  | (_, []) => g
  | (name, _ :: neigbours_part) =>
    let r := Graph.getNodeOrCreateIt g (String.mk name)
    addNeighbours r.1 r.2 (split ',' neigbours_part)

/-- `Graph::createGraph`. -/
def Graph.createGraph (input : String) : Graph :=
  (split '\n' input.data).foldl addLine []

/-- `std::set<unsigned int>::insert`, the set kept as a list without
repetition. -/
def setInsert (unique_values : List Nat) (value : Nat) : List Nat :=
  if value ∈ unique_values then unique_values else unique_values ++ [value]

/-- `Graph::nbrUniqueColor`. -/
def Graph.nbrUniqueColor (g : Graph) : Nat :=
  (g.foldl (fun unique_values node => setInsert unique_values node.value) []).length

/-! ## Notions used to state the properties -/

/-- Every neighbour entry points into the graph (no dangling pointer). -/
def Graph.WellFormed (g : Graph) : Prop :=
  ∀ node ∈ g, ∀ n ∈ node.m_neighbours, n < g.length

instance (g : Graph) : Decidable g.WellFormed := by
  unfold Graph.WellFormed; infer_instance

/-- No neighbour vector is long enough for `start + 1` to wrap around in
`Node::minimumValue`: each has fewer than `2 ^ 32 - 1` entries. -/
def Graph.DegreeBound (g : Graph) : Prop :=
  ∀ node ∈ g, node.m_neighbours.length + 1 < UINT_RANGE

instance (g : Graph) : Decidable g.DegreeBound := by
  unfold Graph.DegreeBound; infer_instance

/-- No node has a colour yet. -/
def Graph.Uncoloured (g : Graph) : Prop :=
  ∀ node ∈ g, node.m_value = 0

instance (g : Graph) : Decidable g.Uncoloured := by
  unfold Graph.Uncoloured; infer_instance

/-- `v` is reached from `u` by following neighbour links, `u` itself
included. -/
def Graph.Reachable (g : Graph) (u v : Nat) : Prop :=
  Relation.ReflTransGen (fun a b => b ∈ (g.deref a).m_neighbours) u v

/-- `Colours root g g1`: `g1` is `g` after some assignments of lines 37-38,
each one giving a node that has no value and is reachable from `root` its
minimal value. -/
inductive Colours (root : Nat) : Graph → Graph → Prop
  | refl (g : Graph) : Colours root g g
  | step {g g1 : Graph} (p : Nat) : Colours root g g1 → g1.Reachable root p →
      p < g1.length → (g1.deref p).m_value = 0 →
      Colours root g (g1.setValue p (Node.minimumValue g1 p))

/-- `Frame g g1`: same nodes, names and neighbour vectors, and every node that
had a value in `g` has the same value in `g1`. -/
def Frame (g g1 : Graph) : Prop :=
  g1.length = g.length ∧
  ∀ p, (g1.deref p).m_neighbours = (g.deref p).m_neighbours ∧
    (g1.deref p).m_name = (g.deref p).m_name ∧
    ((g.deref p).m_value ≠ 0 → (g1.deref p).m_value = (g.deref p).m_value)

/-- The body of the loop over the neighbours (lines 44-45 of
`Node::applyChromatic`), as it is folded in `Node.applyChromatic`. -/
def visit (fuel : Nat) (acc : Graph) (neighbour : Nat) : Option Graph :=
  if (acc.deref neighbour).hasValue then some acc
  else Node.applyChromatic fuel acc neighbour

/-- `Closed g g1`: every node that got its value between `g` and `g1` has all
its neighbours coloured in `g1`. -/
def Closed (g g1 : Graph) : Prop :=
  ∀ p, (g.deref p).m_value = 0 → (g1.deref p).m_value ≠ 0 →
    ∀ n ∈ (g.deref p).m_neighbours, (g1.deref n).m_value ≠ 0

/-- The nodes of `S` that have no value in `g`. -/
def pending (S : Finset Nat) (g : Graph) : Finset Nat :=
  S.filter (fun p => (g.deref p).m_value = 0)

/-- No neighbour vector of `g` has more than `k` entries. -/
def DegreeLe (g : Graph) (k : Nat) : Prop :=
  ∀ node ∈ g, node.m_neighbours.length ≤ k

/-- The set of the values of all nodes of the graph. -/
def valueSet (g : Graph) : Finset Nat := (g.map Node.value).toFinset

/-- Two different nodes that list each other never carry the same colour,
once both have one. -/
def MutualProper (g : Graph) : Prop :=
  ∀ u v, u ≠ v → v ∈ (g.deref u).m_neighbours → u ∈ (g.deref v).m_neighbours →
    (g.deref u).m_value ≠ 0 → (g.deref v).m_value ≠ 0 →
    (g.deref u).m_value ≠ (g.deref v).m_value

/-- `c` gives the two ends of every neighbour link different colours. -/
def IsProperColouring (g : Graph) (c : Nat → Nat) : Prop :=
  ∀ u < g.length, ∀ v ∈ (g.deref u).m_neighbours, c u ≠ c v

instance (g : Graph) (c : Nat → Nat) : Decidable (IsProperColouring g c) := by
  unfold IsProperColouring; infer_instance

/-- The graph has a proper colouring with the colours `0, ..., k - 1`. -/
def Colourable (g : Graph) (k : Nat) : Prop :=
  ∃ c : Nat → Nat, IsProperColouring g c ∧ ∀ u < g.length, c u < k

/-- `k` is the smallest number of colours of a proper colouring. -/
def IsChromaticNumber (g : Graph) (k : Nat) : Prop :=
  Colourable g k ∧ ∀ j < k, ¬ Colourable g j

/-- Every link is declared in both directions and no node lists itself. -/
def Undirected (g : Graph) : Prop :=
  ∀ u < g.length, ∀ v ∈ (g.deref u).m_neighbours, v ≠ u ∧ u ∈ (g.deref v).m_neighbours

instance (g : Graph) : Decidable (Undirected g) := by
  unfold Undirected; infer_instance

/-- The neighbour list of every node holds exactly the other nodes: the graph
is complete and all links are reciprocal. -/
def IsComplete (g : Graph) : Prop :=
  ∀ u < g.length, ∀ v < g.length, (v ∈ (g.deref u).m_neighbours ↔ v ≠ u)

instance (g : Graph) : Decidable (IsComplete g) := by
  unfold IsComplete; infer_instance

/-- The graph is a star with `k` leaves whose centre is the first node: the
centre lists exactly the nodes `1, ..., k` and each of them lists the centre
only. -/
def IsStar (g : Graph) (k : Nat) : Prop :=
  g.length = k + 1 ∧
  (∀ v ∈ (g.deref 0).m_neighbours, 1 ≤ v ∧ v ≤ k) ∧
  (∀ v < k + 1, 1 ≤ v → v ∈ (g.deref 0).m_neighbours ∧ (g.deref v).m_neighbours = [0])

instance (g : Graph) (k : Nat) : Decidable (IsStar g k) := by
  unfold IsStar; infer_instance

/-- The state of a star while its leaves are coloured: the centre has value 1
and every leaf lists the centre only and has value 0 or 2. -/
def StarProgress (k : Nat) (g : Graph) : Prop :=
  g.length = k + 1 ∧ (g.deref 0).m_value = 1 ∧
  ∀ v < k + 1, 1 ≤ v → (g.deref v).m_neighbours = [0] ∧
    ((g.deref v).m_value = 0 ∨ (g.deref v).m_value = 2)

/-- The record of one call of `Node::applyChromatic`: its nesting depth (1 for
the call made by `Graph::applyChromatic`), the node it is made on, the value
of that node on entry and its value after lines 35-39, before the loop over
the neighbours starts. -/
structure Call where
  depth : Nat
  node : Nat
  before : Nat
  after : Nat
  deriving DecidableEq, Repr

/-- `Node::applyChromatic` together with the list of the calls made, in the
order in which they are entered.  `depth` is the nesting depth of this call. -/
def Node.applyChromaticTraced : Nat → Nat → Graph → Nat → Option (Graph × List Call)
  | 0, _, _, _ => none
  | fuel + 1, depth, g, self =>
    (g.deref self).m_neighbours.foldlM
      (fun acc neighbour =>
        if (acc.1.deref neighbour).hasValue then some acc
        else
          (Node.applyChromaticTraced fuel (depth + 1) acc.1 neighbour).map
            (fun r => (r.1, acc.2 ++ r.2)))
      (Node.assignIfNeeded g self,
        [⟨depth, self, (g.deref self).value, ((Node.assignIfNeeded g self).deref self).value⟩])

/-- The body of the loop over the neighbours, as it is folded in
`Node.applyChromaticTraced`. -/
def visitTraced (fuel depth : Nat) (acc : Graph × List Call) (neighbour : Nat) :
    Option (Graph × List Call) :=
  if (acc.1.deref neighbour).hasValue then some acc
  else
    (Node.applyChromaticTraced fuel (depth + 1) acc.1 neighbour).map
      (fun r => (r.1, acc.2 ++ r.2))

/-- What holds of the calls recorded between the graphs `g` and `g1`, all
nested deeper than `depth` and no deeper than `depth + fuel`: each is made on a
node without value, which has a value of at least 1 before the loop over its
neighbours starts, and no node is entered twice. -/
def CallsOk (depth fuel : Nat) (g g1 : Graph) (calls : List Call) : Prop :=
  (calls.map Call.node).Nodup ∧
  ∀ c ∈ calls, c.before = 0 ∧ 1 ≤ c.after ∧ depth < c.depth ∧ c.depth ≤ depth + fuel ∧
    (g.deref c.node).m_value = 0 ∧ (g1.deref c.node).m_value ≠ 0

/-- One round of following neighbour links: the nodes of `S` and all their
neighbours. -/
def expand (g : Graph) (S : Finset Nat) : Finset Nat :=
  S ∪ S.biUnion (fun p => (g.deref p).m_neighbours.toFinset)

/-- The set of the nodes reachable from `root` by neighbour links, `root`
included: as many rounds from `{root}` as the graph has nodes. -/
def reachableFrom (g : Graph) (root : Nat) : Finset Nat :=
  (expand g)^[g.length] {root}

/-- The list without repetition, every element kept at its first occurrence
only. -/
def keepFirst : List String → List String
  | [] => []
  | x :: xs => x :: (keepFirst xs).filter (fun y => y ≠ x)

/-- The lines of the text: the pieces between line breaks. -/
def linesOf (input : String) : List (List Char) := input.data.splitOn '\n'

/-- The text of a line before its first `':'`. -/
def subjectOf (line : List Char) : String := String.mk (line.takeWhile (fun c => c ≠ ':'))

/-- The `','`-separated tokens of the text of a line after its first `':'`,
verbatim. -/
def tokensOf (line : List Char) : List String :=
  (((line.dropWhile (fun c => c ≠ ':')).drop 1).splitOn ',').map String.mk

/-- The names a line mentions: none without `':'`, otherwise the subject, then
the tokens from left to right. -/
def mentionsOfLine (line : List Char) : List String :=
  if ':' ∈ line then subjectOf line :: tokensOf line else []

/-- The names mentioned by some lines, top to bottom. -/
def mentionsOf (lines : List (List Char)) : List String :=
  lines.flatMap mentionsOfLine

/-- The tokens of the lines, top to bottom, that have `':'` and the subject
`name`. -/
def tokensFor (lines : List (List Char)) (name : String) : List String :=
  (lines.filter (fun line => ':' ∈ line ∧ subjectOf line = name)).flatMap tokensOf

/-- The names of the neighbours of the node at `p`, in the order of its
neighbour vector. -/
def neighbourNames (g : Graph) (p : Nat) : List String :=
  (g.deref p).m_neighbours.map (fun n => (g.deref n).name)

/-- `ParsedAs g lines`: `g` is the graph the specification reads from `lines`:
well formed, its names are the names mentioned, each at its first mention, and
the neighbours of every node are named by the tokens of the lines with that
subject, each at its first occurrence. -/
def ParsedAs (g : Graph) (lines : List (List Char)) : Prop :=
  g.WellFormed ∧ g.map Node.name = keepFirst (mentionsOf lines) ∧
  ∀ p < g.length, neighbourNames g p = keepFirst (tokensFor lines (g.deref p).name)

/-- The text with every line that lacks `':'` removed: the remaining lines,
joined by line breaks. -/
def withoutPlainLines (input : String) : String :=
  String.mk (['\n'].intercalate ((linesOf input).filter (fun line => ':' ∈ line)))

/-- No value exceeds the number of neighbours of its node by more than 1. -/
def ValuesBounded (g : Graph) : Prop :=
  ∀ p, (g.deref p).m_value ≤ (g.deref p).m_neighbours.length + 1

/-- The largest length of a neighbour vector, 0 for the graph without node. -/
def maxDegree (g : Graph) : Nat :=
  (g.map (fun node => node.m_neighbours.length)).foldr max 0

/-- What the record of the calls made between the graphs `g` and `g1` tells
about the values: each call leaves its node with the value the node has in
`g1`, which is not 0, and every node that has no value in `g` and has one in
`g1` was entered by one of the calls. -/
def CallsExact (g g1 : Graph) (calls : List Call) : Prop :=
  (∀ c ∈ calls, c.after = (g1.deref c.node).m_value ∧ c.after ≠ 0) ∧
  ∀ p, (g.deref p).m_value = 0 → (g1.deref p).m_value ≠ 0 → p ∈ calls.map Call.node

/-! ## Theorems -/

theorem scanValues_le (l : List Nat) : ∀ s, scanValues s l ≤ s + l.length := by
  induction l with
  | nil => intro s; simp [scanValues]
  | cons v rest ih =>
    intro s
    simp only [scanValues, List.length_cons]
    split_ifs with h1 h2
    · have := ih ((s + 1) % UINT_RANGE)
      have h3 : (s + 1) % UINT_RANGE ≤ s + 1 := Nat.mod_le _ _
      omega
    · omega
    · have := ih s
      omega

theorem le_scanValues (l : List Nat) :
    ∀ s, ((∀ v ∈ l, v < UINT_RANGE) ∨ s + l.length < UINT_RANGE) → s ≤ scanValues s l := by
  induction l with
  | nil => intro s _; simp [scanValues]
  | cons v rest ih =>
    intro s hU
    simp only [scanValues]
    split_ifs with h1 h2
    · have hs : s + 1 < UINT_RANGE := by
        rcases hU with hU | hU
        · have := hU v (List.mem_cons_self _ _); omega
        · simp only [List.length_cons] at hU; omega
      rw [Nat.mod_eq_of_lt hs]
      have := ih (s + 1) (by
        rcases hU with hU | hU
        · exact Or.inl (fun w hw => hU w (List.mem_cons_of_mem _ hw))
        · right; simp only [List.length_cons] at hU; omega)
      omega
    · exact le_refl _
    · exact ih s (by
        rcases hU with hU | hU
        · exact Or.inl (fun w hw => hU w (List.mem_cons_of_mem _ hw))
        · right; simp only [List.length_cons] at hU; omega)

/-- What the scan returns on an ascending list: every value in `(s, r]` occurs
and `r + 1` does not. -/
theorem scanValues_spec (l : List Nat) (hsorted : l.Sorted (· ≤ ·)) :
    ∀ s, ((∀ v ∈ l, v < UINT_RANGE) ∨ s + l.length < UINT_RANGE) →
      (∀ m, s < m → m ≤ scanValues s l → m ∈ l) ∧ (scanValues s l + 1 ∉ l) ∧
      (scanValues s l = s ∨ scanValues s l ∈ l) := by
  induction l with
  | nil => intro s _; simp [scanValues]
  | cons v rest ih =>
    intro s hU
    have hsorted' : rest.Sorted (· ≤ ·) := hsorted.of_cons
    have hge : ∀ w ∈ rest, v ≤ w := fun w hw => List.rel_of_sorted_cons hsorted w hw
    have hU' : ∀ s', s' + rest.length ≤ s + (v :: rest).length →
        ((∀ v ∈ rest, v < UINT_RANGE) ∨ s' + rest.length < UINT_RANGE) := by
      intro s' hs'
      rcases hU with hU | hU
      · exact Or.inl (fun w hw => hU w (List.mem_cons_of_mem _ hw))
      · right; omega
    simp only [scanValues]
    split_ifs with h1 h2
    · have hs : s + 1 < UINT_RANGE := by
        rcases hU with hU | hU
        · have := hU v (List.mem_cons_self _ _); omega
        · simp only [List.length_cons] at hU; omega
      rw [Nat.mod_eq_of_lt hs] at h2 ⊢
      have hU1 := hU' (s + 1) (by simp only [List.length_cons]; omega)
      obtain ⟨a, b, c⟩ := ih hsorted' (s + 1) hU1
      have hle := le_scanValues rest (s + 1) hU1
      refine ⟨?_, ?_, ?_⟩
      · intro m hm1 hm2
        by_cases hm : m = s + 1
        · subst hm; rw [← h2]; exact List.mem_cons_self _ _
        · exact List.mem_cons_of_mem _ (a m (by omega) hm2)
      · intro hmem
        rcases List.mem_cons.1 hmem with h | h
        · omega
        · exact b h
      · rcases c with c | c
        · right; rw [c, ← h2]; exact List.mem_cons_self _ _
        · right; exact List.mem_cons_of_mem _ c
    · rw [Nat.mod_eq_of_lt (by
        rcases hU with hU | hU
        · have := hU v (List.mem_cons_self _ _); omega
        · simp only [List.length_cons] at hU; omega)] at h2
      refine ⟨fun m hm1 hm2 => by omega, ?_, Or.inl rfl⟩
      intro hmem
      rcases List.mem_cons.1 hmem with h | h
      · omega
      · have := hge _ h; omega
    · have hU1 := hU' s (by simp only [List.length_cons]; omega)
      obtain ⟨a, b, c⟩ := ih hsorted' s hU1
      have hle := le_scanValues rest s hU1
      refine ⟨fun m hm1 hm2 => List.mem_cons_of_mem _ (a m hm1 hm2), ?_, ?_⟩
      · intro hmem
        rcases List.mem_cons.1 hmem with h | h
        · omega
        · exact b h
      · rcases c with c | c
        · exact Or.inl c
        · exact Or.inr (List.mem_cons_of_mem _ c)

/-- The value returned by `Node::minimumValue` when the final `start + 1`
does not wrap around. -/
theorem minimumOf_spec (l : List Nat)
    (hU : (∀ v ∈ l, v + 1 < UINT_RANGE) ∨ l.length + 1 < UINT_RANGE) :
    1 ≤ minimumOf l ∧ minimumOf l ∉ l ∧ (∀ m, 1 ≤ m → m < minimumOf l → m ∈ l) ∧
      minimumOf l ≤ l.length + 1 := by
  have hsorted := List.sorted_insertionSort (· ≤ ·) l
  have hmem : ∀ x, x ∈ l.insertionSort (· ≤ ·) ↔ x ∈ l := fun x => List.mem_insertionSort _
  have hlen := List.length_insertionSort (· ≤ ·) l
  have hU' : (∀ v ∈ l.insertionSort (· ≤ ·), v < UINT_RANGE) ∨
      0 + (l.insertionSort (· ≤ ·)).length < UINT_RANGE := by
    rcases hU with hU | hU
    · left; intro v hv; have := hU v ((hmem v).1 hv); omega
    · right; omega
  obtain ⟨a, b, c⟩ := scanValues_spec _ hsorted 0 hU'
  have hle := scanValues_le (l.insertionSort (· ≤ ·)) 0
  have hlt : scanValues 0 (l.insertionSort (· ≤ ·)) + 1 < UINT_RANGE := by
    rcases hU with hU | hU
    · rcases c with c | c
      · rw [c]; simp [UINT_RANGE]
      · exact hU _ ((hmem _).1 c)
    · omega
  unfold minimumOf
  rw [Nat.mod_eq_of_lt hlt]
  refine ⟨by omega, fun h => b ((hmem _).2 h), fun m h1 h2 => (hmem m).1 (a m (by omega) (by omega)), by omega⟩

theorem deref_of_lt (g : Graph) (p : Nat) (h : p < g.length) : g.deref p = g[p] := by
  simp [Graph.deref, List.getD_eq_getElem?_getD, List.getElem?_eq_getElem h]

theorem deref_mem (g : Graph) (p : Nat) (h : p < g.length) : g.deref p ∈ g := by
  rw [deref_of_lt g p h]; exact List.getElem_mem _

theorem deref_of_ge (g : Graph) (p : Nat) (h : g.length ≤ p) : g.deref p = Node.new "" := by
  simp [Graph.deref, List.getD_eq_getElem?_getD, List.getElem?_eq_none h]

theorem exists_deref_of_mem (g : Graph) (node : Node) (h : node ∈ g) :
    ∃ p, p < g.length ∧ g.deref p = node := by
  obtain ⟨p, hp, rfl⟩ := List.getElem_of_mem h
  exact ⟨p, hp, deref_of_lt g p hp⟩

theorem length_setValue (g : Graph) (p : Nat) (v : Nat) :
    (g.setValue p v).length = g.length := by
  simp [Graph.setValue]

theorem deref_setValue_self (g : Graph) (p : Nat) (v : Nat) (h : p < g.length) :
    (g.setValue p v).deref p = { g.deref p with m_value := v } := by
  simp [Graph.deref, Graph.setValue, List.getD_eq_getElem?_getD, List.getElem?_set, h]

theorem deref_setValue_ne (g : Graph) (p q : Nat) (v : Nat) (h : q ≠ p) :
    (g.setValue p v).deref q = g.deref q := by
  simp [Graph.deref, Graph.setValue, List.getD_eq_getElem?_getD, List.getElem?_set, Ne.symm h]

theorem neighbours_setValue (g : Graph) (p q : Nat) (v : Nat) :
    ((g.setValue p v).deref q).m_neighbours = (g.deref q).m_neighbours := by
  by_cases hq : q = p
  · subst hq
    by_cases h : q < g.length
    · rw [deref_setValue_self g q v h]
    · have h1 : g.length ≤ q := Nat.le_of_not_lt h
      rw [deref_of_ge _ _ (by rw [length_setValue]; exact h1), deref_of_ge _ _ h1]
  · rw [deref_setValue_ne g p q v hq]

theorem name_setValue (g : Graph) (p q : Nat) (v : Nat) :
    ((g.setValue p v).deref q).m_name = (g.deref q).m_name := by
  by_cases hq : q = p
  · subst hq
    by_cases h : q < g.length
    · rw [deref_setValue_self g q v h]
    · have h1 : g.length ≤ q := Nat.le_of_not_lt h
      rw [deref_of_ge _ _ (by rw [length_setValue]; exact h1), deref_of_ge _ _ h1]
  · rw [deref_setValue_ne g p q v hq]

theorem value_setValue_self (g : Graph) (p : Nat) (v : Nat) (h : p < g.length) :
    ((g.setValue p v).deref p).m_value = v := by
  rw [deref_setValue_self g p v h]

theorem wellFormed_iff (g : Graph) :
    g.WellFormed ↔ ∀ p, ∀ n ∈ (g.deref p).m_neighbours, n < g.length := by
  constructor
  · intro h p n hn
    by_cases hp : p < g.length
    · exact h _ (deref_mem g p hp) n hn
    · rw [deref_of_ge g p (Nat.le_of_not_lt hp)] at hn
      simp [Node.new] at hn
  · intro h node hnode n hn
    obtain ⟨p, _, rfl⟩ := exists_deref_of_mem g node hnode
    exact h p n hn

theorem degreeBound_iff (g : Graph) :
    g.DegreeBound ↔ ∀ p, (g.deref p).m_neighbours.length + 1 < UINT_RANGE := by
  constructor
  · intro h p
    by_cases hp : p < g.length
    · exact h _ (deref_mem g p hp)
    · rw [deref_of_ge g p (Nat.le_of_not_lt hp)]
      simp [Node.new, UINT_RANGE]
  · intro h node hnode
    obtain ⟨p, _, rfl⟩ := exists_deref_of_mem g node hnode
    exact h p

theorem uncoloured_iff (g : Graph) :
    g.Uncoloured ↔ ∀ p, (g.deref p).m_value = 0 := by
  constructor
  · intro h p
    by_cases hp : p < g.length
    · exact h _ (deref_mem g p hp)
    · rw [deref_of_ge g p (Nat.le_of_not_lt hp)]
      simp [Node.new]
  · intro h node hnode
    obtain ⟨p, _, rfl⟩ := exists_deref_of_mem g node hnode
    exact h p

/-! ### Frame -/

theorem Frame.frame_refl (g : Graph) : Frame g g := ⟨rfl, fun _ => ⟨rfl, rfl, fun _ => rfl⟩⟩

theorem Frame.frame_trans {a b c : Graph} (h1 : Frame a b) (h2 : Frame b c) : Frame a c := by
  refine ⟨h2.1.trans h1.1, fun p => ⟨(h2.2 p).1.trans (h1.2 p).1, (h2.2 p).2.1.trans (h1.2 p).2.1, ?_⟩⟩
  intro hv
  have e1 := (h1.2 p).2.2 hv
  have e2 := (h2.2 p).2.2 (by rw [e1]; exact hv)
  rw [e2, e1]

theorem Frame.frame_setValue (g : Graph) (p : Nat) (v : Nat) (h : (g.deref p).m_value = 0) :
    Frame g (g.setValue p v) := by
  refine ⟨length_setValue g p v, fun q => ⟨neighbours_setValue g p q v, name_setValue g p q v, ?_⟩⟩
  intro hv
  have hq : q ≠ p := by rintro rfl; exact hv h
  rw [deref_setValue_ne g p q v hq]

theorem Frame.frame_wellFormed {g g1 : Graph} (h : Frame g g1) (hw : g.WellFormed) : g1.WellFormed := by
  rw [wellFormed_iff] at hw ⊢
  intro p n hn
  rw [(h.2 p).1] at hn
  rw [h.1]
  exact hw p n hn

theorem Frame.frame_degreeBound {g g1 : Graph} (h : Frame g g1) (hw : g.DegreeBound) :
    g1.DegreeBound := by
  rw [degreeBound_iff] at hw ⊢
  intro p
  rw [(h.2 p).1]
  exact hw p

theorem Frame.frame_reachable {g g1 : Graph} (h : Frame g g1) (u v : Nat) :
    g1.Reachable u v ↔ g.Reachable u v := by
  have e : (fun a b => b ∈ (g1.deref a).m_neighbours) = (fun a b => b ∈ (g.deref a).m_neighbours) := by
    funext a b; rw [(h.2 a).1]
  unfold Graph.Reachable
  rw [e]

theorem Frame.frame_coloured {g g1 : Graph} (h : Frame g g1) (p : Nat)
    (hp : (g.deref p).m_value ≠ 0) : (g1.deref p).m_value ≠ 0 := by
  rw [(h.2 p).2.2 hp]; exact hp

theorem reachable_lt {g : Graph} (hw : g.WellFormed) {u v : Nat} (hu : u < g.length)
    (h : g.Reachable u v) : v < g.length := by
  induction h with
  | refl => exact hu
  | tail _ hbc _ => exact (wellFormed_iff g).1 hw _ _ hbc

/-! ### Colours -/

theorem Colours.colours_frame {root : Nat} {g g1 : Graph} (h : Colours root g g1) : Frame g g1 := by
  induction h with
  | refl => exact Frame.frame_refl _
  | step p _ _ _ hv ih => exact ih.frame_trans (Frame.frame_setValue _ p _ hv)

theorem Colours.colours_trans {root : Nat} {a b c : Graph} (h1 : Colours root a b)
    (h2 : Colours root b c) : Colours root a c := by
  induction h2 with
  | refl => exact h1
  | step p _ hr hp hv ih => exact Colours.step p ih hr hp hv

theorem Colours.colours_lift {root n : Nat} {a b : Graph} (h : Colours n a b)
    (hr : a.Reachable root n) : Colours root a b := by
  induction h with
  | refl => exact Colours.refl _
  | step p h1 hr1 hp hv ih =>
    refine Colours.step p ih ?_ hp hv
    have := (h1.colours_frame.frame_reachable root n).2 hr
    exact Relation.ReflTransGen.trans this hr1

theorem Colours.colours_assignIfNeeded (g : Graph) (self : Nat) (h : self < g.length) :
    Colours self g (Node.assignIfNeeded g self) := by
  unfold Node.assignIfNeeded
  split_ifs with hv
  · exact Colours.refl _
  · refine Colours.step self (Colours.refl _) Relation.ReflTransGen.refl h ?_
    simpa [Node.hasValue] using hv

theorem applyChromatic_succ (fuel : Nat) (g : Graph) (self : Nat) :
    Node.applyChromatic (fuel + 1) g self =
      (g.deref self).m_neighbours.foldlM (visit fuel) (Node.assignIfNeeded g self) := rfl

theorem applyChromatic_colours (fuel : Nat) :
    ∀ (g g1 : Graph) (self : Nat), g.WellFormed → self < g.length →
      Node.applyChromatic fuel g self = some g1 →
      Colours self (Node.assignIfNeeded g self) g1 := by
  induction fuel with
  | zero => intro g g1 self _ _ h; simp [Node.applyChromatic] at h
  | succ fuel ih =>
    intro g g1 self hw hself h
    rw [applyChromatic_succ] at h
    have h0 := Colours.colours_assignIfNeeded g self hself
    have hsub : ∀ n ∈ (g.deref self).m_neighbours, g.Reachable self n ∧ n < g.length :=
      fun n hn => ⟨Relation.ReflTransGen.single hn, (wellFormed_iff g).1 hw self n hn⟩
    generalize (g.deref self).m_neighbours = l at h hsub
    have key : ∀ (l : List Nat) (acc : Graph), (∀ n ∈ l, g.Reachable self n ∧ n < g.length) →
        Colours self g acc → l.foldlM (visit fuel) acc = some g1 → Colours self acc g1 := by
      intro l
      induction l with
      | nil => intro acc _ _ hf; simp at hf; subst hf; exact Colours.refl _
      | cons n l ihl =>
        intro acc hsub hacc hf
        rw [List.foldlM_cons] at hf
        cases hv : visit fuel acc n with
        | none => rw [hv] at hf; simp at hf
        | some acc1 =>
          rw [hv] at hf
          simp only [Option.bind_eq_bind, Option.some_bind] at hf
          have hn := hsub n (List.mem_cons_self _ _)
          have hstep : Colours self acc acc1 := by
            unfold visit at hv
            split_ifs at hv with hc
            · cases hv; exact Colours.refl _
            · have hfr := hacc.colours_frame
              have c1 := ih acc acc1 n (hfr.frame_wellFormed hw) (by rw [hfr.1]; exact hn.2) hv
              have c0 := Colours.colours_assignIfNeeded acc n (by rw [hfr.1]; exact hn.2)
              exact (c0.colours_trans c1).colours_lift ((hfr.frame_reachable self n).2 hn.1)
          exact hstep.colours_trans (ihl acc1 (fun m hm => hsub m (List.mem_cons_of_mem _ hm))
            (hacc.colours_trans hstep) hf)
    exact key l _ hsub h0 h

theorem minimumValue_spec (g : Graph) (hd : g.DegreeBound) (self : Nat) :
    1 ≤ Node.minimumValue g self ∧
    (∀ n ∈ (g.deref self).m_neighbours, (g.deref n).m_value ≠ Node.minimumValue g self) ∧
    Node.minimumValue g self ≤ (g.deref self).m_neighbours.length + 1 := by
  have h := minimumOf_spec ((g.deref self).m_neighbours.map (fun n => (g.deref n).value))
    (Or.inr (by rw [List.length_map]; exact (degreeBound_iff g).1 hd self))
  unfold Node.minimumValue
  refine ⟨h.1, ?_, by simpa using h.2.2.2⟩
  intro n hn heq
  exact h.2.1 (List.mem_map.2 ⟨n, hn, heq⟩)

theorem assignIfNeeded_coloured (g : Graph) (hd : g.DegreeBound) (self : Nat)
    (h : self < g.length) : ((Node.assignIfNeeded g self).deref self).m_value ≠ 0 := by
  unfold Node.assignIfNeeded
  split_ifs with hv
  · simpa [Node.hasValue] using hv
  · rw [value_setValue_self g self _ h]
    have := (minimumValue_spec g hd self).1
    omega

theorem assignIfNeeded_of_coloured (g : Graph) (self : Nat)
    (h : (g.deref self).m_value ≠ 0) : Node.assignIfNeeded g self = g := by
  unfold Node.assignIfNeeded
  rw [if_pos (by simpa [Node.hasValue] using h)]

theorem assignIfNeeded_of_uncoloured (g : Graph) (self : Nat)
    (h : (g.deref self).m_value = 0) :
    Node.assignIfNeeded g self = g.setValue self (Node.minimumValue g self) := by
  unfold Node.assignIfNeeded
  rw [if_neg (by simp [Node.hasValue, h])]

theorem assignIfNeeded_ne (g : Graph) (self p : Nat) (h : p ≠ self) :
    (Node.assignIfNeeded g self).deref p = g.deref p := by
  unfold Node.assignIfNeeded
  split_ifs
  · rfl
  · exact deref_setValue_ne g self p _ h

theorem visit_colours {fuel : Nat} {acc acc1 : Graph} {n : Nat} (hw : acc.WellFormed)
    (hn : n < acc.length) (h : visit fuel acc n = some acc1) : Colours n acc acc1 := by
  unfold visit at h
  split_ifs at h with hc
  · cases h; exact Colours.refl _
  · exact (Colours.colours_assignIfNeeded acc n hn).colours_trans (applyChromatic_colours fuel acc acc1 n hw hn h)

theorem applyChromatic_colours_from (fuel : Nat) (g g1 : Graph) (self : Nat)
    (hw : g.WellFormed) (hself : self < g.length)
    (h : Node.applyChromatic fuel g self = some g1) : Colours self g g1 :=
  (Colours.colours_assignIfNeeded g self hself).colours_trans (applyChromatic_colours fuel g g1 self hw hself h)

theorem Closed.closed_trans {a b c : Graph} (hab : Closed a b) (hbc : Closed b c) (fab : Frame a b)
    (fbc : Frame b c) : Closed a c := by
  intro p h0 h1 n hn
  by_cases hb : (b.deref p).m_value = 0
  · exact hbc p hb h1 n (by rw [(fab.2 p).1]; exact hn)
  · exact fbc.frame_coloured n (hab p h0 hb n hn)

theorem foldlM_visit_closed (fuel : Nat) (g1 : Graph)
    (ih : ∀ (acc acc1 : Graph) (n : Nat), acc.WellFormed → acc.DegreeBound → n < acc.length →
      visit fuel acc n = some acc1 → (acc1.deref n).m_value ≠ 0 ∧ Closed acc acc1) :
    ∀ (l : List Nat) (acc : Graph), acc.WellFormed → acc.DegreeBound →
      (∀ n ∈ l, n < acc.length) → l.foldlM (visit fuel) acc = some g1 →
      Frame acc g1 ∧ (∀ n ∈ l, (g1.deref n).m_value ≠ 0) ∧ Closed acc g1 := by
  intro l
  induction l with
  | nil =>
    intro acc _ _ _ hf
    simp at hf; subst hf
    exact ⟨Frame.frame_refl _, by simp, fun p h0 h1 => absurd h0 h1⟩
  | cons n l ihl =>
    intro acc hw hd hl hf
    rw [List.foldlM_cons] at hf
    cases hv : visit fuel acc n with
    | none => rw [hv] at hf; simp at hf
    | some acc1 =>
      rw [hv] at hf
      simp only [Option.bind_eq_bind, Option.some_bind] at hf
      have hn := hl n (List.mem_cons_self _ _)
      have f1 : Frame acc acc1 := (visit_colours hw hn hv).colours_frame
      obtain ⟨c1, c2⟩ := ih acc acc1 n hw hd hn hv
      obtain ⟨f2, d1, d2⟩ := ihl acc1 (f1.frame_wellFormed hw) (f1.frame_degreeBound hd)
        (fun m hm => by rw [f1.1]; exact hl m (List.mem_cons_of_mem _ hm)) hf
      refine ⟨f1.frame_trans f2, ?_, Closed.closed_trans c2 d2 f1 f2⟩
      intro m hm
      rcases List.mem_cons.1 hm with rfl | hm
      · exact f2.frame_coloured _ c1
      · exact d1 m hm

/-- After a call of `Node::applyChromatic` the node has a value, so have all
its neighbours, and so have all neighbours of every node coloured by the
call. -/
theorem applyChromatic_closed (fuel : Nat) :
    ∀ (g g1 : Graph) (self : Nat), g.WellFormed → g.DegreeBound → self < g.length →
      Node.applyChromatic fuel g self = some g1 →
      (g1.deref self).m_value ≠ 0 ∧
      (∀ n ∈ (g.deref self).m_neighbours, (g1.deref n).m_value ≠ 0) ∧ Closed g g1 := by
  induction fuel with
  | zero => intro g g1 self _ _ _ h; simp [Node.applyChromatic] at h
  | succ fuel ih =>
    intro g g1 self hw hd hself h
    rw [applyChromatic_succ] at h
    have f0 : Frame g (Node.assignIfNeeded g self) := (Colours.colours_assignIfNeeded g self hself).colours_frame
    have hvisit : ∀ (acc acc1 : Graph) (n : Nat), acc.WellFormed → acc.DegreeBound →
        n < acc.length → visit fuel acc n = some acc1 →
        (acc1.deref n).m_value ≠ 0 ∧ Closed acc acc1 := by
      intro acc acc1 n hw' hd' hn hv
      unfold visit at hv
      split_ifs at hv with hc
      · cases hv
        exact ⟨by simpa [Node.hasValue] using hc, fun p h0 h1 => absurd h0 h1⟩
      · obtain ⟨a, _, c⟩ := ih acc acc1 n hw' hd' hn hv
        exact ⟨a, c⟩
    obtain ⟨f1, d1, d2⟩ := foldlM_visit_closed fuel g1 hvisit _ _ (f0.frame_wellFormed hw)
      (f0.frame_degreeBound hd)
      (fun n hn => by rw [f0.1]; exact (wellFormed_iff g).1 hw self n hn) h
    have hself1 : (g1.deref self).m_value ≠ 0 :=
      f1.frame_coloured _ (assignIfNeeded_coloured g hd self hself)
    refine ⟨hself1, d1, ?_⟩
    intro p h0 h1 n hn
    by_cases hp : p = self
    · subst hp; exact d1 n hn
    · refine d2 p ?_ h1 n ?_
      · rw [assignIfNeeded_ne g self p hp]; exact h0
      · rw [assignIfNeeded_ne g self p hp]; exact hn

theorem pending_mono {S : Finset Nat} {g g1 : Graph} (h : Frame g g1) :
    pending S g1 ⊆ pending S g := by
  intro p hp
  simp only [pending, Finset.mem_filter] at hp ⊢
  refine ⟨hp.1, ?_⟩
  by_contra hne
  exact h.frame_coloured p hne hp.2

theorem foldlM_visit_total (fuel : Nat) (g : Graph) (self : Nat) (S : Finset Nat)
    (hS : ∀ p, g.Reachable self p → p ∈ S)
    (ih : ∀ (acc : Graph) (n : Nat), acc.WellFormed → acc.DegreeBound → n < acc.length →
      (∀ p, acc.Reachable n p → p ∈ S) → ((pending S acc).erase n).card < fuel →
      ∃ acc1, Node.applyChromatic fuel acc n = some acc1) :
    ∀ (l : List Nat) (acc : Graph), acc.WellFormed → acc.DegreeBound → Frame g acc →
      (∀ n ∈ l, n < acc.length ∧ g.Reachable self n) → (pending S acc).card ≤ fuel →
      ∃ g1, l.foldlM (visit fuel) acc = some g1 := by
  intro l
  induction l with
  | nil => intro acc _ _ _ _ _; exact ⟨acc, rfl⟩
  | cons n l ihl =>
    intro acc hw hd hf hl hc
    obtain ⟨hn, hrn⟩ := hl n (List.mem_cons_self _ _)
    have hv : ∃ acc1, visit fuel acc n = some acc1 := by
      unfold visit
      split_ifs with hcol
      · exact ⟨acc, rfl⟩
      · apply ih acc n hw hd hn
        · intro p hp
          exact hS p (Relation.ReflTransGen.trans hrn ((hf.frame_reachable n p).1 hp))
        · have hmem : n ∈ pending S acc := by
            simp only [pending, Finset.mem_filter]
            exact ⟨hS n hrn, by simpa [Node.hasValue] using hcol⟩
          rw [Finset.card_erase_of_mem hmem]
          have : 0 < (pending S acc).card := Finset.card_pos.2 ⟨n, hmem⟩
          omega
    obtain ⟨acc1, hv⟩ := hv
    have f1 : Frame acc acc1 := (visit_colours hw hn hv).colours_frame
    obtain ⟨g1, hg1⟩ := ihl acc1 (f1.frame_wellFormed hw) (f1.frame_degreeBound hd) (hf.frame_trans f1)
      (fun m hm => ⟨by rw [f1.1]; exact (hl m (List.mem_cons_of_mem _ hm)).1,
        (hl m (List.mem_cons_of_mem _ hm)).2⟩)
      (le_trans (Finset.card_le_card (pending_mono f1)) hc)
    exact ⟨g1, by rw [List.foldlM_cons, hv]; exact hg1⟩

/-- The recursion returns as soon as the depth allowed exceeds the number of
nodes without a value, other than the node itself, in a set that holds every
node reachable from it. -/
theorem applyChromatic_total (fuel : Nat) :
    ∀ (g : Graph) (self : Nat) (S : Finset Nat), g.WellFormed → g.DegreeBound →
      self < g.length → (∀ p, g.Reachable self p → p ∈ S) →
      ((pending S g).erase self).card < fuel →
      ∃ g1, Node.applyChromatic fuel g self = some g1 := by
  induction fuel with
  | zero => intro g self S _ _ _ _ h; omega
  | succ fuel ih =>
    intro g self S hw hd hself hS hc
    rw [applyChromatic_succ]
    have f0 : Frame g (Node.assignIfNeeded g self) := (Colours.colours_assignIfNeeded g self hself).colours_frame
    apply foldlM_visit_total fuel g self S hS (fun acc n => ih acc n S) _ _ (f0.frame_wellFormed hw)
      (f0.frame_degreeBound hd) f0
    · intro n hn
      exact ⟨by rw [f0.1]; exact (wellFormed_iff g).1 hw self n hn,
        Relation.ReflTransGen.single hn⟩
    · have hsub : pending S (Node.assignIfNeeded g self) ⊆ (pending S g).erase self := by
        intro p hp
        have hp' := pending_mono f0 hp
        rw [Finset.mem_erase]
        refine ⟨?_, hp'⟩
        rintro rfl
        simp only [pending, Finset.mem_filter] at hp
        exact assignIfNeeded_coloured g hd p hself hp.2
      have := Finset.card_le_card hsub
      omega

theorem visit_fuel_mono {fuel fuel1 : Nat} {acc acc1 : Graph} {n : Nat}
    (ih : ∀ g g1 self, Node.applyChromatic fuel g self = some g1 →
      Node.applyChromatic fuel1 g self = some g1)
    (h : visit fuel acc n = some acc1) : visit fuel1 acc n = some acc1 := by
  unfold visit at h ⊢
  split_ifs at h ⊢ with hc
  · exact h
  · exact ih _ _ _ h

theorem foldlM_visit_fuel_mono {fuel fuel1 : Nat}
    (ih : ∀ g g1 self, Node.applyChromatic fuel g self = some g1 →
      Node.applyChromatic fuel1 g self = some g1) :
    ∀ (l : List Nat) (acc g1 : Graph), l.foldlM (visit fuel) acc = some g1 →
      l.foldlM (visit fuel1) acc = some g1 := by
  intro l
  induction l with
  | nil => intro acc g1 h; exact h
  | cons n l ihl =>
    intro acc g1 h
    rw [List.foldlM_cons] at h ⊢
    cases hv : visit fuel acc n with
    | none => rw [hv] at h; simp at h
    | some acc1 =>
      rw [hv] at h
      rw [visit_fuel_mono ih hv]
      exact ihl acc1 g1 h

/-- More depth allowed never changes a result. -/
theorem applyChromatic_fuel_mono (fuel : Nat) :
    ∀ (fuel1 : Nat) (g g1 : Graph) (self : Nat), fuel ≤ fuel1 →
      Node.applyChromatic fuel g self = some g1 →
      Node.applyChromatic fuel1 g self = some g1 := by
  induction fuel with
  | zero => intro fuel1 g g1 self _ h; simp [Node.applyChromatic] at h
  | succ fuel ih =>
    intro fuel1 g g1 self hle h
    obtain ⟨k, rfl⟩ : ∃ k, fuel1 = k + 1 := ⟨fuel1 - 1, by omega⟩
    rw [applyChromatic_succ] at h ⊢
    exact foldlM_visit_fuel_mono (fun g g1 self => ih k g g1 self (by omega)) _ _ _ h

/-- `Graph::applyChromatic` returns on every well-formed graph. -/
theorem graph_applyChromatic_total (g : Graph) (hw : g.WellFormed) (hd : g.DegreeBound) :
    ∃ g1, g.applyChromatic = some g1 := by
  unfold Graph.applyChromatic
  split_ifs with he
  · exact ⟨g, rfl⟩
  · have hpos : 0 < g.length := by
      cases g with
      | nil => simp at he
      | cons a l => simp
    apply applyChromatic_total g.length g 0 (Finset.range g.length) hw hd hpos
    · intro p hp
      exact Finset.mem_range.2 (reachable_lt hw hpos hp)
    · have hsub : (pending (Finset.range g.length) g).erase 0 ⊆ (Finset.range g.length).erase 0 :=
        Finset.erase_subset_erase _ (Finset.filter_subset _ _)
      have h1 := Finset.card_le_card hsub
      rw [Finset.card_erase_of_mem (Finset.mem_range.2 hpos), Finset.card_range] at h1
      omega

/-! ### The parser keeps the graph well formed and colourless -/

theorem findNode_lt {g : Graph} {name : String} {p : Nat} (h : g.findNode name = some p) :
    p < g.length := by
  unfold Graph.findNode at h
  obtain ⟨hp, _⟩ := List.findIdx?_eq_some_iff_getElem.1 h
  exact hp

theorem getNodeOrCreateIt_lt (g : Graph) (name : String) :
    (g.getNodeOrCreateIt name).2 < (g.getNodeOrCreateIt name).1.length := by
  unfold Graph.getNodeOrCreateIt
  cases h : g.findNode name with
  | none => simp
  | some p => exact findNode_lt h

theorem getNodeOrCreateIt_length_le (g : Graph) (name : String) :
    g.length ≤ (g.getNodeOrCreateIt name).1.length := by
  unfold Graph.getNodeOrCreateIt
  cases h : g.findNode name with
  | none => simp
  | some p => exact le_refl _

theorem getNodeOrCreateIt_wellFormed (g : Graph) (name : String) (hw : g.WellFormed) :
    (g.getNodeOrCreateIt name).1.WellFormed := by
  unfold Graph.getNodeOrCreateIt
  cases h : g.findNode name with
  | some p => exact hw
  | none =>
    intro node hnode n hn
    simp only [List.length_append, List.length_singleton]
    rcases List.mem_append.1 hnode with h1 | h1
    · exact Nat.lt_succ_of_lt (hw node h1 n hn)
    · rw [List.mem_singleton] at h1; subst h1; simp [Node.new] at hn

theorem getNodeOrCreateIt_uncoloured (g : Graph) (name : String) (hu : g.Uncoloured) :
    (g.getNodeOrCreateIt name).1.Uncoloured := by
  unfold Graph.getNodeOrCreateIt
  cases h : g.findNode name with
  | some p => exact hu
  | none =>
    intro node hnode
    rcases List.mem_append.1 hnode with h1 | h1
    · exact hu node h1
    · rw [List.mem_singleton] at h1; subst h1; rfl

theorem length_pushNeighbour (g : Graph) (p node : Nat) :
    (g.pushNeighbour p node).length = g.length := by
  simp [Graph.pushNeighbour]

theorem length_addNeighbour (g : Graph) (self node : Nat) :
    (Node.addNeighbour g self node).1.length = g.length := by
  unfold Node.addNeighbour
  split_ifs
  · rfl
  · exact length_pushNeighbour g self node

theorem mem_pushNeighbour {g : Graph} {p node : Nat} {x : Node}
    (hx : x ∈ g.pushNeighbour p node) :
    x ∈ g ∨ (p < g.length ∧
      x = { g.deref p with m_neighbours := (g.deref p).m_neighbours ++ [node] }) := by
  unfold Graph.pushNeighbour at hx
  by_cases hp : p < g.length
  · rcases List.mem_or_eq_of_mem_set hx with h | h
    · exact Or.inl h
    · exact Or.inr ⟨hp, h⟩
  · rw [List.set_eq_of_length_le (Nat.le_of_not_lt hp)] at hx
    exact Or.inl hx

theorem addNeighbour_wellFormed (g : Graph) (self node : Nat) (hw : g.WellFormed)
    (hnode : node < g.length) : (Node.addNeighbour g self node).1.WellFormed := by
  unfold Node.addNeighbour
  split_ifs
  · exact hw
  · intro x hx n hn
    rw [length_pushNeighbour]
    rcases mem_pushNeighbour hx with h | ⟨hp, rfl⟩
    · exact hw x h n hn
    · rcases List.mem_append.1 hn with h1 | h1
      · exact hw _ (deref_mem g self hp) n h1
      · rw [List.mem_singleton] at h1; subst h1; exact hnode

theorem addNeighbour_uncoloured (g : Graph) (self node : Nat) (hu : g.Uncoloured) :
    (Node.addNeighbour g self node).1.Uncoloured := by
  unfold Node.addNeighbour
  split_ifs
  · exact hu
  · intro x hx
    rcases mem_pushNeighbour hx with h | ⟨hp, rfl⟩
    · exact hu x h
    · exact hu (g.deref self) (deref_mem g self hp)

theorem addNeighbours_inv (names : List (List Char)) :
    ∀ (g : Graph) (node : Nat), g.WellFormed → g.Uncoloured → node < g.length →
      (addNeighbours g node names).WellFormed ∧ (addNeighbours g node names).Uncoloured := by
  induction names with
  | nil => intro g node hw hu _; exact ⟨hw, hu⟩
  | cons name names ih =>
    intro g node hw hu hnode
    unfold addNeighbours
    rw [List.foldl_cons]
    have hw1 := getNodeOrCreateIt_wellFormed g (String.mk name) hw
    have hu1 := getNodeOrCreateIt_uncoloured g (String.mk name) hu
    have hlt := getNodeOrCreateIt_lt g (String.mk name)
    have hle := getNodeOrCreateIt_length_le g (String.mk name)
    exact ih _ node (addNeighbour_wellFormed _ node _ hw1 hlt)
      (addNeighbour_uncoloured _ node _ hu1)
      (by rw [length_addNeighbour]; exact lt_of_lt_of_le hnode hle)

theorem addLine_inv (g : Graph) (line : List Char) (hw : g.WellFormed) (hu : g.Uncoloured) :
    (addLine g line).WellFormed ∧ (addLine g line).Uncoloured := by
  unfold addLine
  split
  · exact ⟨hw, hu⟩
  · exact addNeighbours_inv _ _ _ (getNodeOrCreateIt_wellFormed g _ hw)
      (getNodeOrCreateIt_uncoloured g _ hu) (getNodeOrCreateIt_lt g _)

theorem foldl_addLine_inv (lines : List (List Char)) :
    ∀ g : Graph, g.WellFormed → g.Uncoloured →
      (lines.foldl addLine g).WellFormed ∧ (lines.foldl addLine g).Uncoloured := by
  induction lines with
  | nil => intro g hw hu; exact ⟨hw, hu⟩
  | cons line lines ih =>
    intro g hw hu
    rw [List.foldl_cons]
    exact ih _ (addLine_inv g line hw hu).1 (addLine_inv g line hw hu).2

/-- Every graph built by `Graph::createGraph` is well formed. -/
theorem createGraph_wellFormed (input : String) : (Graph.createGraph input).WellFormed :=
  (foldl_addLine_inv _ [] (fun _ h => by simp at h) (fun _ h => by simp at h)).1

/-- Every node of a graph built by `Graph::createGraph` has value 0. -/
theorem createGraph_uncoloured (input : String) : (Graph.createGraph input).Uncoloured :=
  (foldl_addLine_inv _ [] (fun _ h => by simp at h) (fun _ h => by simp at h)).2

/-! ### Neighbour vectors are no longer than the input text -/

theorem split_ne_nil (sep : Char) (l : List Char) : split sep l ≠ [] := by
  cases l with
  | nil => simp [split]
  | cons c cs =>
    simp only [split]
    split_ifs
    · simp
    · split <;> simp

theorem split_length_sum (sep : Char) (l : List Char) :
    ((split sep l).map List.length).sum + (split sep l).length = l.length + 1 := by
  induction l with
  | nil => simp [split]
  | cons c cs ih =>
    simp only [split]
    split_ifs with hc
    · simp only [List.map_cons, List.sum_cons, List.length_cons, List.length_nil]
      omega
    · cases hs : split sep cs with
      | nil => exact absurd hs (split_ne_nil sep cs)
      | cons t ts =>
        rw [hs] at ih
        simp only [List.map_cons, List.sum_cons, List.length_cons] at ih ⊢
        omega

theorem split_length_le (sep : Char) (l : List Char) : (split sep l).length ≤ l.length + 1 := by
  have := split_length_sum sep l
  omega

theorem split_sum_le (sep : Char) (l : List Char) :
    ((split sep l).map List.length).sum ≤ l.length := by
  have := split_length_sum sep l
  have h : 0 < (split sep l).length := List.length_pos.2 (split_ne_nil sep l)
  omega

theorem DegreeLe.degreeLe_mono {g : Graph} {k k1 : Nat} (h : DegreeLe g k) (hk : k ≤ k1) :
    DegreeLe g k1 := fun node hn => le_trans (h node hn) hk

theorem getNodeOrCreateIt_degreeLe (g : Graph) (name : String) (k : Nat) (h : DegreeLe g k) :
    DegreeLe (g.getNodeOrCreateIt name).1 k := by
  unfold Graph.getNodeOrCreateIt
  cases hf : g.findNode name with
  | some p => exact h
  | none =>
    intro node hnode
    rcases List.mem_append.1 hnode with h1 | h1
    · exact h node h1
    · rw [List.mem_singleton] at h1; subst h1; simp [Node.new]

theorem addNeighbour_degreeLe (g : Graph) (self node : Nat) (k : Nat) (h : DegreeLe g k) :
    DegreeLe (Node.addNeighbour g self node).1 (k + 1) := by
  unfold Node.addNeighbour
  split_ifs
  · exact h.degreeLe_mono (Nat.le_succ k)
  · intro x hx
    rcases mem_pushNeighbour hx with h1 | ⟨hp, rfl⟩
    · exact le_trans (h x h1) (Nat.le_succ k)
    · have := h (g.deref self) (deref_mem g self hp)
      simp only [List.length_append, List.length_singleton]
      omega

theorem addNeighbours_degreeLe (names : List (List Char)) :
    ∀ (g : Graph) (node : Nat) (k : Nat), DegreeLe g k →
      DegreeLe (addNeighbours g node names) (k + names.length) := by
  induction names with
  | nil => intro g node k h; exact h
  | cons name names ih =>
    intro g node k h
    unfold addNeighbours
    rw [List.foldl_cons]
    have h1 := addNeighbour_degreeLe _ node (g.getNodeOrCreateIt (String.mk name)).2 k
      (getNodeOrCreateIt_degreeLe g (String.mk name) k h)
    have h2 := ih _ node (k + 1) h1
    simp only [List.length_cons]
    rw [show k + (names.length + 1) = k + 1 + names.length by omega]
    exact h2

theorem addLine_degreeLe (g : Graph) (line : List Char) (k : Nat) (h : DegreeLe g k) :
    DegreeLe (addLine g line) (k + line.length) := by
  unfold addLine
  split
  · exact h.degreeLe_mono (Nat.le_add_right _ _)
  · rename_i name c part hspan
    have hlen : line.length = name.length + (part.length + 1) := by
      have h1 := List.span_eq_take_drop (fun c => c != ':') line
      rw [hspan] at h1
      have h2 := List.takeWhile_append_dropWhile (fun c => c != ':') line
      have e1 : name = List.takeWhile (fun c => c != ':') line := congrArg Prod.fst h1
      have e2 : c :: part = List.dropWhile (fun c => c != ':') line := congrArg Prod.snd h1
      rw [← e1, ← e2] at h2
      rw [← h2]; simp
    have := addNeighbours_degreeLe (split ',' part) (g.getNodeOrCreateIt (String.mk name)).1
      (g.getNodeOrCreateIt (String.mk name)).2 k (getNodeOrCreateIt_degreeLe g _ k h)
    exact this.degreeLe_mono (by have := split_length_le ',' part; omega)

theorem foldl_addLine_degreeLe (lines : List (List Char)) :
    ∀ (g : Graph) (k : Nat), DegreeLe g k →
      DegreeLe (lines.foldl addLine g) (k + (lines.map List.length).sum) := by
  induction lines with
  | nil => intro g k h; exact h
  | cons line lines ih =>
    intro g k h
    rw [List.foldl_cons]
    have := ih _ _ (addLine_degreeLe g line k h)
    simp only [List.map_cons, List.sum_cons]
    rw [show k + (line.length + (lines.map List.length).sum)
      = k + line.length + (lines.map List.length).sum by omega]
    exact this

/-- No node of `Graph::createGraph(input)` has more neighbours than the input
has characters. -/
theorem createGraph_degreeLe (input : String) : DegreeLe (Graph.createGraph input) input.length := by
  have h := foldl_addLine_degreeLe (split '\n' input.data) [] 0 (fun _ h => by simp at h)
  exact h.degreeLe_mono (by have := split_sum_le '\n' input.data; simp only [String.length]; omega)

/-- An input text of fewer than `2 ^ 32 - 1` characters gives a graph in which
`Node::minimumValue` never wraps around. -/
theorem createGraph_degreeBound (input : String) (h : input.length + 1 < UINT_RANGE) :
    (Graph.createGraph input).DegreeBound := by
  intro node hnode
  have := createGraph_degreeLe input node hnode
  omega

/-! ### The minimal value (C3) -/

/-- C3: whenever no neighbour carries the maximum `unsigned int`,
`Node::minimumValue` returns the smallest positive integer that is not the
value of a neighbour: it is at least 1, no neighbour has it, and every smaller
positive integer is the value of some neighbour.  On the collected values
`{1,2,4}` it returns 3, on `{1,2,3}` it returns 4, without coloured neighbour
it returns 1; order, repetition and zeros do not matter. -/
theorem minimumValue_smallest_unused (g : Graph) (self : Nat)
    (h : ∀ n ∈ (g.deref self).neighbours, (g.deref n).value + 1 < UINT_RANGE) :
    (1 ≤ Node.minimumValue g self ∧
      (∀ n ∈ (g.deref self).neighbours, (g.deref n).value ≠ Node.minimumValue g self) ∧
      (∀ m, 1 ≤ m → m < Node.minimumValue g self →
        ∃ n ∈ (g.deref self).neighbours, (g.deref n).value = m)) ∧
    minimumOf [1, 2, 4] = 3 ∧ minimumOf [1, 2, 3] = 4 ∧ minimumOf [] = 1 ∧
    minimumOf [0, 0, 0] = 1 ∧ minimumOf [4, 0, 2, 1, 2, 0, 1] = 3 ∧
    minimumOf [3, 3, 1, 0, 2] = 4 := by
  have hs := minimumOf_spec ((g.deref self).m_neighbours.map (fun n => (g.deref n).value))
    (Or.inl (by
      intro v hv
      obtain ⟨n, hn, rfl⟩ := List.mem_map.1 hv
      exact h n hn))
  refine ⟨⟨hs.1, ?_, ?_⟩, by decide, by decide, by decide, by decide, by decide, by decide⟩
  · intro n hn heq
    exact hs.2.1 (List.mem_map.2 ⟨n, hn, heq⟩)
  · intro m h1 h2
    obtain ⟨n, hn, e⟩ := List.mem_map.1 (hs.2.2.1 m h1 h2)
    exact ⟨n, hn, e⟩

/-- Witness for C3: a node whose three neighbours carry 4, 1 and 2. -/
theorem minimumValue_smallest_unused_witness :
    Node.minimumValue
      [⟨"A", 0, [1, 2, 3]⟩, ⟨"B", 4, [0]⟩, ⟨"C", 1, [0]⟩, ⟨"D", 2, [0]⟩] 0 = 3 ∧
    1 ≤ Node.minimumValue
      [⟨"A", 0, [1, 2, 3]⟩, ⟨"B", 4, [0]⟩, ⟨"C", 1, [0]⟩, ⟨"D", 2, [0]⟩] 0 :=
  ⟨by decide,
   (minimumValue_smallest_unused
      [⟨"A", 0, [1, 2, 3]⟩, ⟨"B", 4, [0]⟩, ⟨"C", 1, [0]⟩, ⟨"D", 2, [0]⟩] 0
      (by decide)).1.1⟩

/-! ### Counting the colours (C5) -/

theorem foldl_setInsert (l : List Node) :
    ∀ acc : List Nat, acc.Nodup →
      (l.foldl (fun unique_values node => setInsert unique_values node.value) acc).Nodup ∧
      ∀ v, v ∈ l.foldl (fun unique_values node => setInsert unique_values node.value) acc ↔
        v ∈ acc ∨ v ∈ l.map Node.value := by
  induction l with
  | nil => intro acc h; simpa using h
  | cons node l ih =>
    intro acc h
    rw [List.foldl_cons]
    have hn : (setInsert acc node.value).Nodup := by
      unfold setInsert
      split_ifs with hm
      · exact h
      · exact List.Nodup.append h (List.nodup_singleton _) (by simpa using hm)
    obtain ⟨h1, h2⟩ := ih _ hn
    refine ⟨h1, fun v => ?_⟩
    rw [h2 v]
    unfold setInsert
    split_ifs with hm
    · simp only [List.map_cons, List.mem_cons]
      constructor
      · rintro (h | h)
        · exact Or.inl h
        · exact Or.inr (Or.inr h)
      · rintro (h | h | h)
        · exact Or.inl h
        · exact Or.inl (h ▸ hm)
        · exact Or.inr h
    · simp only [List.map_cons, List.mem_cons, List.mem_append, List.mem_singleton]
      tauto

theorem nbrUniqueColor_eq_card (g : Graph) : g.nbrUniqueColor = (valueSet g).card := by
  obtain ⟨h1, h2⟩ := foldl_setInsert g [] List.nodup_nil
  unfold Graph.nbrUniqueColor valueSet
  rw [← List.toFinset_card_of_nodup h1]
  congr 1
  ext v
  simp only [List.mem_toFinset]
  rw [h2 v]
  simp

/-- C5: `Graph::nbrUniqueColor` is the number of distinct values among the
values of all nodes, that is the number of distinct colours plus one when some
node has no colour; it is 4 after colouring the graph of
`"A:B,C\nB:A,C\nC:A,B\nD:E\nE:D"` and 0 on the graph without node. -/
theorem nbrUniqueColor_counts_distinct_values (g : Graph) :
    g.nbrUniqueColor = (valueSet g).card ∧
    g.nbrUniqueColor = ((valueSet g).filter (fun v => v ≠ 0)).card +
      (if ∃ node ∈ g, node.value = 0 then 1 else 0) ∧
    (Graph.createGraph "A:B,C\nB:A,C\nC:A,B\nD:E\nE:D").applyChromatic.map Graph.nbrUniqueColor
      = some 4 ∧
    Graph.nbrUniqueColor [] = 0 := by
  refine ⟨nbrUniqueColor_eq_card g, ?_, by decide, rfl⟩
  rw [nbrUniqueColor_eq_card]
  have hsplit := Finset.filter_card_add_filter_neg_card_eq_card (s := valueSet g) (fun v => v ≠ 0)
  rw [← hsplit]
  congr 1
  split_ifs with h0
  · have : (valueSet g).filter (fun v => ¬ v ≠ 0) = {0} := by
      ext v
      simp only [Finset.mem_filter, Finset.mem_singleton, valueSet, List.mem_toFinset,
        List.mem_map, not_not]
      constructor
      · exact fun h => h.2
      · rintro rfl
        obtain ⟨node, hn, hv⟩ := h0
        exact ⟨⟨node, hn, hv⟩, rfl⟩
    rw [this]; rfl
  · have : (valueSet g).filter (fun v => ¬ v ≠ 0) = ∅ := by
      ext v
      simp only [Finset.mem_filter, valueSet, List.mem_toFinset, List.mem_map, not_not,
        Finset.not_mem_empty, iff_false]
      rintro ⟨⟨node, hn, hv⟩, rfl⟩
      exact h0 ⟨node, hn, hv⟩
    rw [this]; rfl

/-! ### What the traversal colours (C2, C6) -/

theorem length_pos_of_not_isEmpty {g : Graph} (h : ¬ g.isEmpty = true) : 0 < g.length := by
  cases g with
  | nil => simp at h
  | cons a l => simp

/-- The result of `Graph::applyChromatic` on a graph with a node, with what
the recursion from the first node guarantees. -/
theorem graph_applyChromatic_spec (g : Graph) (hw : g.WellFormed) (hd : g.DegreeBound) :
    ∃ g1, g.applyChromatic = some g1 ∧ Colours 0 g g1 ∧ Closed g g1 ∧
      (0 < g.length → (g1.deref 0).m_value ≠ 0 ∧
        ∀ n ∈ (g.deref 0).m_neighbours, (g1.deref n).m_value ≠ 0) := by
  obtain ⟨g1, h1⟩ := graph_applyChromatic_total g hw hd
  refine ⟨g1, h1, ?_⟩
  unfold Graph.applyChromatic at h1
  split_ifs at h1 with he
  · cases h1
    refine ⟨Colours.refl _, fun p h0 h1 => absurd h0 h1, fun hpos => ?_⟩
    cases g with
    | nil => simp at hpos
    | cons a l => simp at he
  · have hpos := length_pos_of_not_isEmpty he
    obtain ⟨a, b, c⟩ := applyChromatic_closed g.length g g1 0 hw hd hpos h1
    exact ⟨applyChromatic_colours_from g.length g g1 0 hw hpos h1, c, fun _ => ⟨a, b⟩⟩

theorem closed_reachable {g g1 : Graph} (hu : g.Uncoloured) (hc : Closed g g1) {u p : Nat}
    (h0 : (g1.deref u).m_value ≠ 0) (hr : g.Reachable u p) : (g1.deref p).m_value ≠ 0 := by
  induction hr with
  | refl => exact h0
  | tail _ hbc ih => exact hc _ ((uncoloured_iff g).1 hu _) ih _ hbc

theorem colours_support {root : Nat} {g g1 : Graph} (h : Colours root g g1) (p : Nat)
    (hp : (g1.deref p).m_value ≠ 0) : (g.deref p).m_value ≠ 0 ∨ g.Reachable root p := by
  induction h with
  | refl => exact Or.inl hp
  | step q hc hr hq hv ih =>
    by_cases hpq : p = q
    · subst hpq
      exact Or.inr ((hc.colours_frame.frame_reachable root p).1 hr)
    · rw [deref_setValue_ne _ q p _ hpq] at hp
      exact ih hp

/-- C2: after `Graph::createGraph` and `Graph::applyChromatic` every node
reachable from the first node of the vector by neighbour links, the first node
included, has a value of at least 1 (`hasValue()` is true).  The premise keeps
`start + 1` from wrapping around in `Node::minimumValue`; it holds for every
input of fewer than `2 ^ 32 - 1` characters (`createGraph_degreeBound`). -/
theorem reachable_nodes_coloured (input : String)
    (hd : (Graph.createGraph input).DegreeBound) :
    ∃ g1, (Graph.createGraph input).applyChromatic = some g1 ∧
      ∀ p, p < (Graph.createGraph input).length → (Graph.createGraph input).Reachable 0 p →
        1 ≤ (g1.deref p).value ∧ (g1.deref p).hasValue = true := by
  obtain ⟨g1, h1, _, hc, h0⟩ :=
    graph_applyChromatic_spec _ (createGraph_wellFormed input) hd
  refine ⟨g1, h1, fun p hp hr => ?_⟩
  have := closed_reachable (createGraph_uncoloured input) hc (h0 (by omega)).1 hr
  exact ⟨Nat.one_le_iff_ne_zero.2 this, by simpa [Node.hasValue] using this⟩

/-- Witness for C2: the triangle with a second component. -/
theorem reachable_nodes_coloured_witness :
    (Graph.createGraph "A:B,C\nB:A,C\nC:A,B\nD:E\nE:D").DegreeBound ∧
    ∃ g1, (Graph.createGraph "A:B,C\nB:A,C\nC:A,B\nD:E\nE:D").applyChromatic = some g1 ∧
      ∀ p, p < (Graph.createGraph "A:B,C\nB:A,C\nC:A,B\nD:E\nE:D").length →
        (Graph.createGraph "A:B,C\nB:A,C\nC:A,B\nD:E\nE:D").Reachable 0 p →
        1 ≤ (g1.deref p).value ∧ (g1.deref p).hasValue = true :=
  ⟨by decide, reachable_nodes_coloured "A:B,C\nB:A,C\nC:A,B\nD:E\nE:D" (by decide)⟩

/-- C6: after `Graph::createGraph` and `Graph::applyChromatic` every node that
is not reachable from the first node of the vector by neighbour links still
has value 0. -/
theorem unreachable_nodes_uncoloured (input : String)
    (hd : (Graph.createGraph input).DegreeBound) :
    ∃ g1, (Graph.createGraph input).applyChromatic = some g1 ∧
      ∀ p, ¬ (Graph.createGraph input).Reachable 0 p → (g1.deref p).value = 0 := by
  obtain ⟨g1, h1, hcol, _, _⟩ :=
    graph_applyChromatic_spec _ (createGraph_wellFormed input) hd
  refine ⟨g1, h1, fun p hr => ?_⟩
  by_contra hne
  rcases colours_support hcol p hne with h | h
  · exact h ((uncoloured_iff _).1 (createGraph_uncoloured input) p)
  · exact hr h

/-- Witness for C6: the triangle with a second component. -/
theorem unreachable_nodes_uncoloured_witness :
    (Graph.createGraph "A:B,C\nB:A,C\nC:A,B\nD:E\nE:D").DegreeBound ∧
    ∃ g1, (Graph.createGraph "A:B,C\nB:A,C\nC:A,B\nD:E\nE:D").applyChromatic = some g1 ∧
      ∀ p, ¬ (Graph.createGraph "A:B,C\nB:A,C\nC:A,B\nD:E\nE:D").Reachable 0 p →
        (g1.deref p).value = 0 :=
  ⟨by decide, unreachable_nodes_uncoloured "A:B,C\nB:A,C\nC:A,B\nD:E\nE:D" (by decide)⟩

/-! ### Neighbours and their colours (C1) -/

/-- A property kept by every assignment of a minimal value is kept by the
whole traversal. -/
theorem colours_invariant (P : Graph → Prop)
    (hstep : ∀ (g : Graph) (p : Nat), g.DegreeBound → P g → p < g.length →
      (g.deref p).m_value = 0 → P (g.setValue p (Node.minimumValue g p)))
    {root : Nat} {g g1 : Graph} (h : Colours root g g1) (hd : g.DegreeBound) (hP : P g) :
    P g1 := by
  induction h with
  | refl => exact hP
  | step p hc _ hp hv ih => exact hstep _ p (hc.colours_frame.frame_degreeBound hd) ih hp hv

theorem mutualProper_step (g : Graph) (p : Nat) (hd : g.DegreeBound) (hP : MutualProper g)
    (hp : p < g.length) (_hv : (g.deref p).m_value = 0) :
    MutualProper (g.setValue p (Node.minimumValue g p)) := by
  obtain ⟨_, hmin, _⟩ := minimumValue_spec g hd p
  intro u v huv hvu huv' hu0 hv0
  rw [neighbours_setValue] at hvu huv'
  by_cases hup : u = p
  · subst hup
    have hvp : v ≠ u := fun e => huv e.symm
    rw [value_setValue_self g u _ hp, deref_setValue_ne g u v _ hvp]
    exact fun e => hmin v hvu e.symm
  · by_cases hvp : v = p
    · subst hvp
      rw [value_setValue_self g v _ hp, deref_setValue_ne g v u _ hup]
      exact hmin u huv'
    · rw [deref_setValue_ne g p u _ hup] at hu0 ⊢
      rw [deref_setValue_ne g p v _ hvp] at hv0 ⊢
      exact hP u v huv hvu huv' hu0 hv0

theorem mutualProper_of_uncoloured (g : Graph) (hu : g.Uncoloured) : MutualProper g :=
  fun u _ _ _ _ h0 _ => absurd ((uncoloured_iff g).1 hu u) h0

/-- C1, as the code has it: after `Graph::createGraph` and
`Graph::applyChromatic`, two different nodes reachable from the first node
that list each other as neighbours carry different values. -/
theorem mutual_neighbours_differ (input : String)
    (hd : (Graph.createGraph input).DegreeBound) :
    ∃ g1, (Graph.createGraph input).applyChromatic = some g1 ∧
      ∀ u v, (Graph.createGraph input).Reachable 0 u → (Graph.createGraph input).Reachable 0 v →
        v ∈ ((Graph.createGraph input).deref u).neighbours →
        u ∈ ((Graph.createGraph input).deref v).neighbours → u ≠ v →
        (g1.deref u).value ≠ (g1.deref v).value := by
  obtain ⟨g1, h1, hcol, hc, h0⟩ :=
    graph_applyChromatic_spec _ (createGraph_wellFormed input) hd
  refine ⟨g1, h1, fun u v hu hv hvu huv hne => ?_⟩
  have hpos : 0 < (Graph.createGraph input).length := by
    by_contra hlen
    have : (Graph.createGraph input).deref u = Node.new "" :=
      deref_of_ge _ _ (by omega)
    rw [this] at hvu
    simp [Node.new, Node.neighbours] at hvu
  have hP := colours_invariant MutualProper mutualProper_step hcol hd
    (mutualProper_of_uncoloured _ (createGraph_uncoloured input))
  have hf := hcol.colours_frame
  have cu := closed_reachable (createGraph_uncoloured input) hc (h0 hpos).1 hu
  have cv := closed_reachable (createGraph_uncoloured input) hc (h0 hpos).1 hv
  exact hP u v hne (by rw [(hf.2 u).1]; exact hvu) (by rw [(hf.2 v).1]; exact huv) cu cv

/-- Witness for C1 as amended: the triangle. -/
theorem mutual_neighbours_differ_witness :
    (Graph.createGraph "A:B,C\nB:A,C\nC:A,B").DegreeBound ∧
    ∃ g1, (Graph.createGraph "A:B,C\nB:A,C\nC:A,B").applyChromatic = some g1 ∧
      ∀ u v, (Graph.createGraph "A:B,C\nB:A,C\nC:A,B").Reachable 0 u →
        (Graph.createGraph "A:B,C\nB:A,C\nC:A,B").Reachable 0 v →
        v ∈ ((Graph.createGraph "A:B,C\nB:A,C\nC:A,B").deref u).neighbours →
        u ∈ ((Graph.createGraph "A:B,C\nB:A,C\nC:A,B").deref v).neighbours → u ≠ v →
        (g1.deref u).value ≠ (g1.deref v).value :=
  ⟨by decide, mutual_neighbours_differ "A:B,C\nB:A,C\nC:A,B" (by decide)⟩

/-- C1 as stated fails: for `"A:B"` the node B is in the neighbour list of A,
both are reachable from A, and both get value 1; for `"A:A"` the node A is its
own neighbour. -/
theorem neighbours_differ_counterexample :
    ((Graph.createGraph "A:B").applyChromatic = some [⟨"A", 1, [1]⟩, ⟨"B", 1, []⟩] ∧
      1 ∈ ((Graph.createGraph "A:B").deref 0).neighbours ∧
      (Graph.createGraph "A:B").Reachable 0 0 ∧ (Graph.createGraph "A:B").Reachable 0 1 ∧
      (Graph.deref [⟨"A", 1, [1]⟩, ⟨"B", 1, []⟩] 0).value
        = (Graph.deref [⟨"A", 1, [1]⟩, ⟨"B", 1, []⟩] 1).value) ∧
    ((Graph.createGraph "A:A").applyChromatic = some [⟨"A", 1, [0]⟩] ∧
      0 ∈ ((Graph.createGraph "A:A").deref 0).neighbours ∧
      (Graph.createGraph "A:A").Reachable 0 0) := by
  refine ⟨⟨by decide, by decide, Relation.ReflTransGen.refl, ?_, by decide⟩,
    by decide, by decide, Relation.ReflTransGen.refl⟩
  exact Relation.ReflTransGen.single (by decide)

/-! ### Idempotence (C7) -/

theorem foldlM_visit_of_coloured (fuel : Nat) (acc : Graph) :
    ∀ l : List Nat, (∀ n ∈ l, (acc.deref n).m_value ≠ 0) →
      l.foldlM (visit fuel) acc = some acc := by
  intro l
  induction l with
  | nil => intro _; rfl
  | cons n l ih =>
    intro h
    have hv : visit fuel acc n = some acc := by
      unfold visit
      rw [if_pos (by simpa [Node.hasValue] using h n (List.mem_cons_self _ _))]
    rw [List.foldlM_cons, hv]
    exact ih (fun m hm => h m (List.mem_cons_of_mem _ hm))

/-- C7: `Graph::applyChromatic` is idempotent: on every well-formed graph it
returns, and a second call on its result returns that same result. -/
theorem applyChromatic_idempotent (g : Graph) (hw : g.WellFormed) (hd : g.DegreeBound) :
    ∃ g1, g.applyChromatic = some g1 ∧ g1.applyChromatic = some g1 := by
  obtain ⟨g1, h1, hcol, _, h0⟩ := graph_applyChromatic_spec g hw hd
  refine ⟨g1, h1, ?_⟩
  have hf := hcol.colours_frame
  unfold Graph.applyChromatic
  split_ifs with he
  · rfl
  · have hpos1 := length_pos_of_not_isEmpty he
    have hpos : 0 < g.length := by rw [← hf.1]; exact hpos1
    obtain ⟨k, hk⟩ : ∃ k, g1.length = k + 1 := ⟨g1.length - 1, by omega⟩
    rw [hk, applyChromatic_succ, assignIfNeeded_of_coloured g1 0 (h0 hpos).1]
    apply foldlM_visit_of_coloured
    intro n hn
    rw [(hf.2 0).1] at hn
    exact (h0 hpos).2 n hn

/-- Witness for C7: a path of three nodes, as parsed. -/
theorem applyChromatic_idempotent_witness :
    (Graph.createGraph "A:B\nB:A,C\nC:B").WellFormed ∧
    (Graph.createGraph "A:B\nB:A,C\nC:B").DegreeBound ∧
    ∃ g1, (Graph.createGraph "A:B\nB:A,C\nC:B").applyChromatic = some g1 ∧
      g1.applyChromatic = some g1 :=
  ⟨by decide, by decide,
    applyChromatic_idempotent (Graph.createGraph "A:B\nB:A,C\nC:B") (by decide) (by decide)⟩

/-! ### The chromatic number (C4) -/

set_option maxRecDepth 4000 in
/-- C4 fails on `"A:B,V\nB:A,C,D,V\nC:B,D\nD:C,B,V\nV:A,B,D"`: the graph is
undirected and connected, its chromatic number is 3, and
`Graph::nbrUniqueColor` after `Graph::applyChromatic` returns 4. -/
theorem nbrUniqueColor_not_chromatic_number :
    Undirected (Graph.createGraph "A:B,V\nB:A,C,D,V\nC:B,D\nD:C,B,V\nV:A,B,D") ∧
    (∀ p < (Graph.createGraph "A:B,V\nB:A,C,D,V\nC:B,D\nD:C,B,V\nV:A,B,D").length,
      (Graph.createGraph "A:B,V\nB:A,C,D,V\nC:B,D\nD:C,B,V\nV:A,B,D").Reachable 0 p) ∧
    (Graph.createGraph "A:B,V\nB:A,C,D,V\nC:B,D\nD:C,B,V\nV:A,B,D").applyChromatic.map
      Graph.nbrUniqueColor = some 4 ∧
    IsChromaticNumber (Graph.createGraph "A:B,V\nB:A,C,D,V\nC:B,D\nD:C,B,V\nV:A,B,D") 3 := by
  have hg : Graph.createGraph "A:B,V\nB:A,C,D,V\nC:B,D\nD:C,B,V\nV:A,B,D" =
      [⟨"A", 0, [1, 2]⟩, ⟨"B", 0, [0, 3, 4, 2]⟩, ⟨"V", 0, [0, 1, 4]⟩, ⟨"C", 0, [1, 4]⟩,
        ⟨"D", 0, [3, 1, 2]⟩] := by decide
  rw [hg]
  refine ⟨by decide, ?_, by decide, ⟨fun u => [2, 0, 1, 1, 2].getD u 0, by decide, by decide⟩, ?_⟩
  · intro p hp
    have h01 : Graph.Reachable [⟨"A", 0, [1, 2]⟩, ⟨"B", 0, [0, 3, 4, 2]⟩, ⟨"V", 0, [0, 1, 4]⟩,
        ⟨"C", 0, [1, 4]⟩, ⟨"D", 0, [3, 1, 2]⟩] 0 1 := Relation.ReflTransGen.single (by decide)
    simp only [List.length_cons, List.length_nil] at hp
    interval_cases p
    · exact Relation.ReflTransGen.refl
    · exact h01
    · exact Relation.ReflTransGen.single (by decide)
    · exact Relation.ReflTransGen.tail h01 (by decide)
    · exact Relation.ReflTransGen.tail h01 (by decide)
  · rintro j hj ⟨c, hc, hlt⟩
    have h13 := hc 1 (by decide) 3 (by decide)
    have h14 := hc 1 (by decide) 4 (by decide)
    have h34 := hc 3 (by decide) 4 (by decide)
    have b1 := hlt 1 (by decide)
    have b3 := hlt 3 (by decide)
    have b4 := hlt 4 (by decide)
    omega

/-! ### Complete graphs (C9) -/

theorem valueSet_card_of_injective (g : Graph)
    (h : ∀ u < g.length, ∀ v < g.length, u ≠ v → (g.deref u).m_value ≠ (g.deref v).m_value) :
    (valueSet g).card = g.length := by
  unfold valueSet
  have hnd : (g.map Node.value).Nodup := by
    rw [List.nodup_iff_injective_get]
    intro i j hij
    have hi : i.1 < g.length := by have := i.2; simpa using this
    have hj : j.1 < g.length := by have := j.2; simpa using this
    by_contra hne
    apply h i.1 hi j.1 hj (fun e => hne (Fin.ext e))
    rw [deref_of_lt g _ hi, deref_of_lt g _ hj]
    simpa [Node.value] using hij
  rw [List.toFinset_card_of_nodup hnd, List.length_map]

/-- C9: when the text declares a complete graph on `n` names with all links
reciprocal (the parsed graph has `n` nodes and each lists exactly the others),
`Graph::nbrUniqueColor` after `Graph::applyChromatic` returns `n`; the triangle
`"A:B,C\nB:A,C\nC:A,B"` yields 3 and the single edge `"A:B\nB:A"` yields 2. -/
theorem complete_graph_colours (n : Nat) (input : String)
    (hd : (Graph.createGraph input).DegreeBound)
    (hn : (Graph.createGraph input).length = n)
    (hc : IsComplete (Graph.createGraph input)) :
    (∃ g1, (Graph.createGraph input).applyChromatic = some g1 ∧ g1.nbrUniqueColor = n) ∧
    (Graph.createGraph "A:B,C\nB:A,C\nC:A,B").applyChromatic.map Graph.nbrUniqueColor = some 3 ∧
    (Graph.createGraph "A:B\nB:A").applyChromatic.map Graph.nbrUniqueColor = some 2 := by
  refine ⟨?_, by decide, by decide⟩
  obtain ⟨g1, h1, hcol, hcl, h0⟩ :=
    graph_applyChromatic_spec _ (createGraph_wellFormed input) hd
  refine ⟨g1, h1, ?_⟩
  have hf := hcol.colours_frame
  have hu := createGraph_uncoloured input
  have hP := colours_invariant MutualProper mutualProper_step hcol hd
    (mutualProper_of_uncoloured _ hu)
  rw [nbrUniqueColor_eq_card, valueSet_card_of_injective, hf.1, hn]
  intro u hu1 v hv1 huv
  rw [hf.1] at hu1 hv1
  have hpos : 0 < (Graph.createGraph input).length := by omega
  have hreach : ∀ p, p < (Graph.createGraph input).length →
      (Graph.createGraph input).Reachable 0 p := by
    intro p hp
    by_cases hp0 : p = 0
    · subst hp0; exact Relation.ReflTransGen.refl
    · exact Relation.ReflTransGen.single ((hc 0 hpos p hp).2 hp0)
  have cu := closed_reachable hu hcl (h0 hpos).1 (hreach u hu1)
  have cv := closed_reachable hu hcl (h0 hpos).1 (hreach v hv1)
  refine hP u v huv ?_ ?_ cu cv
  · rw [(hf.2 u).1]; exact (hc u hu1 v hv1).2 (fun e => huv e.symm)
  · rw [(hf.2 v).1]; exact (hc v hv1 u hu1).2 huv

/-- Witness for C9: the complete graph on four names, lines and names in
mixed order. -/
theorem complete_graph_colours_witness :
    (Graph.createGraph "A:B,C,D\nC:D,A,B\nB:A,D,C\nD:C,B,A").DegreeBound ∧
    (Graph.createGraph "A:B,C,D\nC:D,A,B\nB:A,D,C\nD:C,B,A").length = 4 ∧
    IsComplete (Graph.createGraph "A:B,C,D\nC:D,A,B\nB:A,D,C\nD:C,B,A") ∧
    ∃ g1, (Graph.createGraph "A:B,C,D\nC:D,A,B\nB:A,D,C\nD:C,B,A").applyChromatic = some g1 ∧
      g1.nbrUniqueColor = 4 :=
  ⟨by decide, by decide, by decide,
    (complete_graph_colours 4 "A:B,C,D\nC:D,A,B\nB:A,D,C\nD:C,B,A"
      (by decide) (by decide) (by decide)).1⟩

/-! ### Stars (C10) -/

theorem minimumValue_of_uncoloured_neighbours (g : Graph) (self : Nat)
    (h : ∀ n ∈ (g.deref self).m_neighbours, (g.deref n).m_value = 0) :
    Node.minimumValue g self = 1 := by
  have hs := minimumOf_spec ((g.deref self).m_neighbours.map (fun n => (g.deref n).value))
    (Or.inl (by
      intro v hv
      obtain ⟨n, hn, rfl⟩ := List.mem_map.1 hv
      simp only [Node.value, h n hn]
      decide))
  unfold Node.minimumValue
  by_contra hne
  have h1 := hs.2.2.1 1 (le_refl 1) (by have := hs.1; omega)
  obtain ⟨n, hn, e⟩ := List.mem_map.1 h1
  simp only [Node.value, h n hn] at e
  omega

theorem starProgress_step (k : Nat) (g : Graph) (p : Nat) (_hd : g.DegreeBound)
    (hP : StarProgress k g) (hp : p < g.length) (hv : (g.deref p).m_value = 0) :
    StarProgress k (g.setValue p (Node.minimumValue g p)) := by
  obtain ⟨hlen, h0, hleaf⟩ := hP
  have hp0 : p ≠ 0 := by rintro rfl; omega
  have hmin : Node.minimumValue g p = 2 := by
    unfold Node.minimumValue
    rw [(hleaf p (by omega) (by omega)).1]
    simp only [List.map_cons, List.map_nil, Node.value, h0]
    decide
  refine ⟨by rw [length_setValue]; exact hlen, ?_, ?_⟩
  · rw [deref_setValue_ne g p 0 _ (fun e => hp0 e.symm)]; exact h0
  · intro v hv1 hv2
    rw [neighbours_setValue]
    refine ⟨(hleaf v hv1 hv2).1, ?_⟩
    by_cases hvp : v = p
    · subst hvp
      rw [value_setValue_self g v _ hp, hmin]
      exact Or.inr rfl
    · rw [deref_setValue_ne g p v _ hvp]
      exact (hleaf v hv1 hv2).2

theorem valueSet_eq_of_star (k : Nat) (hk : 1 ≤ k) (g : Graph) (hlen : g.length = k + 1)
    (h0 : (g.deref 0).m_value = 1) (hleaf : ∀ v < k + 1, 1 ≤ v → (g.deref v).m_value = 2) :
    valueSet g = {1, 2} := by
  ext x
  simp only [valueSet, List.mem_toFinset, List.mem_map, Finset.mem_insert, Finset.mem_singleton]
  constructor
  · rintro ⟨node, hnode, rfl⟩
    obtain ⟨p, hp, rfl⟩ := exists_deref_of_mem g node hnode
    by_cases hp0 : p = 0
    · subst hp0; exact Or.inl h0
    · exact Or.inr (hleaf p (by omega) (by omega))
  · rintro (rfl | rfl)
    · exact ⟨g.deref 0, deref_mem g 0 (by omega), h0⟩
    · exact ⟨g.deref 1, deref_mem g 1 (by omega), hleaf 1 (by omega) (le_refl 1)⟩

/-- C10: when the text declares a star with `k ≥ 1` leaves whose centre stands
on the first line (the parsed graph has the centre first, which lists exactly
the `k` leaves, and each leaf lists the centre only), then after
`Graph::applyChromatic` the centre has value 1, every leaf has value 2 and
`Graph::nbrUniqueColor` returns 2; so it is for `"A:B,C\nB:A\nC:A"`. -/
theorem star_colours (k : Nat) (input : String) (hk : 1 ≤ k)
    (hd : (Graph.createGraph input).DegreeBound)
    (hs : IsStar (Graph.createGraph input) k) :
    (∃ g1, (Graph.createGraph input).applyChromatic = some g1 ∧
      (g1.deref 0).value = 1 ∧ (∀ v, 1 ≤ v → v ≤ k → (g1.deref v).value = 2) ∧
      g1.nbrUniqueColor = 2) ∧
    (Graph.createGraph "A:B,C\nB:A\nC:A").applyChromatic =
      some [⟨"A", 1, [1, 2]⟩, ⟨"B", 2, [0]⟩, ⟨"C", 2, [0]⟩] ∧
    (Graph.createGraph "A:B,C\nB:A\nC:A").applyChromatic.map Graph.nbrUniqueColor = some 2 := by
  refine ⟨?_, by decide, by decide⟩
  obtain ⟨hlen, hcentre, hleaf⟩ := hs
  have hw := createGraph_wellFormed input
  have hu := createGraph_uncoloured input
  have hu' := (uncoloured_iff _).1 hu
  obtain ⟨g1, h1, _, hcl, h0⟩ := graph_applyChromatic_spec _ hw hd
  refine ⟨g1, h1, ?_⟩
  have hpos : 0 < (Graph.createGraph input).length := by omega
  have hrun : Node.applyChromatic (Graph.createGraph input).length (Graph.createGraph input) 0
      = some g1 := by
    unfold Graph.applyChromatic at h1
    rw [if_neg (by
      intro he
      have := List.isEmpty_iff.1 he
      rw [this] at hpos
      simp at hpos)] at h1
    exact h1
  have hcol := applyChromatic_colours _ _ _ 0 hw hpos hrun
  have hassign : Node.assignIfNeeded (Graph.createGraph input) 0 =
      (Graph.createGraph input).setValue 0 1 := by
    rw [assignIfNeeded_of_uncoloured _ 0 (hu' 0),
      minimumValue_of_uncoloured_neighbours _ 0 (fun n _ => hu' n)]
  rw [hassign] at hcol
  have hf0 : Frame (Graph.createGraph input) ((Graph.createGraph input).setValue 0 1) :=
    Frame.frame_setValue _ 0 1 (hu' 0)
  have hstart : StarProgress k ((Graph.createGraph input).setValue 0 1) := by
    refine ⟨by rw [length_setValue]; exact hlen, value_setValue_self _ 0 1 hpos, ?_⟩
    intro v hv1 hv2
    rw [neighbours_setValue, deref_setValue_ne _ 0 v 1 (by omega)]
    exact ⟨(hleaf v hv1 hv2).2, Or.inl (hu' v)⟩
  obtain ⟨_, hc1, hl1⟩ := colours_invariant (StarProgress k) (starProgress_step k) hcol
    (hf0.frame_degreeBound hd) hstart
  have hleaves : ∀ v < k + 1, 1 ≤ v → (g1.deref v).m_value = 2 := by
    intro v hv1 hv2
    have hr : (Graph.createGraph input).Reachable 0 v :=
      Relation.ReflTransGen.single (hleaf v hv1 hv2).1
    have hne := closed_reachable hu hcl (h0 hpos).1 hr
    rcases (hl1 v hv1 hv2).2 with h | h
    · exact absurd h hne
    · exact h
  refine ⟨hc1, fun v hv1 hv2 => hleaves v (by omega) hv1, ?_⟩
  rw [nbrUniqueColor_eq_card, valueSet_eq_of_star k hk g1
    (by rw [(hcol.colours_frame).1, length_setValue]; exact hlen) hc1 hleaves]
  rfl

/-- Witness for C10: a star with three leaves, the leaf lines in another order
than the leaves are listed. -/
theorem star_colours_witness :
    (Graph.createGraph "M:X,Y,Z\nZ:M\nX:M\nY:M").DegreeBound ∧
    IsStar (Graph.createGraph "M:X,Y,Z\nZ:M\nX:M\nY:M") 3 ∧
    ∃ g1, (Graph.createGraph "M:X,Y,Z\nZ:M\nX:M\nY:M").applyChromatic = some g1 ∧
      (g1.deref 0).value = 1 ∧ (∀ v, 1 ≤ v → v ≤ 3 → (g1.deref v).value = 2) ∧
      g1.nbrUniqueColor = 2 :=
  ⟨by decide, by decide,
    (star_colours 3 "M:X,Y,Z\nZ:M\nX:M\nY:M" (by decide) (by decide) (by decide)).1⟩

/-! ### Termination and the calls made (C8) -/

theorem applyChromaticTraced_succ (fuel depth : Nat) (g : Graph) (self : Nat) :
    Node.applyChromaticTraced (fuel + 1) depth g self =
      (g.deref self).m_neighbours.foldlM (visitTraced fuel depth)
        (Node.assignIfNeeded g self,
          [⟨depth, self, (g.deref self).value,
            ((Node.assignIfNeeded g self).deref self).value⟩]) := rfl

theorem foldlM_visitTraced_of_visit (fuel depth : Nat)
    (ih : ∀ (g g1 : Graph) (self : Nat), Node.applyChromatic fuel g self = some g1 →
      ∃ tr, Node.applyChromaticTraced fuel (depth + 1) g self = some (g1, tr)) :
    ∀ (l : List Nat) (acc g1 : Graph) (t : List Call), l.foldlM (visit fuel) acc = some g1 →
      ∃ tr, l.foldlM (visitTraced fuel depth) (acc, t) = some (g1, tr) := by
  intro l
  induction l with
  | nil =>
    intro acc g1 t h
    simp at h; subst h
    exact ⟨t, rfl⟩
  | cons n l ihl =>
    intro acc g1 t h
    rw [List.foldlM_cons] at h
    cases hv : visit fuel acc n with
    | none => rw [hv] at h; simp at h
    | some acc1 =>
      rw [hv] at h
      simp only [Option.bind_eq_bind, Option.some_bind] at h
      have hv' : ∃ t1, visitTraced fuel depth (acc, t) n = some (acc1, t1) := by
        unfold visit at hv
        unfold visitTraced
        split_ifs at hv ⊢ with hc
        · cases hv; exact ⟨t, rfl⟩
        · obtain ⟨tr, htr⟩ := ih acc acc1 n hv
          exact ⟨t ++ tr, by simp [htr]⟩
      obtain ⟨t1, ht1⟩ := hv'
      obtain ⟨tr, htr⟩ := ihl acc1 g1 t1 h
      exact ⟨tr, by rw [List.foldlM_cons, ht1]; exact htr⟩

/-- The traced recursion returns the graph of the plain one. -/
theorem applyChromaticTraced_of_applyChromatic (fuel : Nat) :
    ∀ (depth : Nat) (g g1 : Graph) (self : Nat), Node.applyChromatic fuel g self = some g1 →
      ∃ tr, Node.applyChromaticTraced fuel depth g self = some (g1, tr) := by
  induction fuel with
  | zero => intro depth g g1 self h; simp [Node.applyChromatic] at h
  | succ fuel ih =>
    intro depth g g1 self h
    rw [applyChromatic_succ] at h
    rw [applyChromaticTraced_succ]
    exact foldlM_visitTraced_of_visit fuel depth (ih (depth + 1)) _ _ _ _ h

theorem frame_uncoloured_back {g g1 : Graph} (h : Frame g g1) (p : Nat)
    (hp : (g1.deref p).m_value = 0) : (g.deref p).m_value = 0 := by
  by_contra hne
  exact h.frame_coloured p hne hp

theorem callsOk_nil (depth fuel : Nat) (g g1 : Graph) : CallsOk depth fuel g g1 [] :=
  ⟨by simp, fun c hc => by simp at hc⟩

theorem callsOk_append {depth fuel : Nat} {a b c : Graph} {xs ys : List Call}
    (hx : CallsOk depth fuel a b xs) (hy : CallsOk depth fuel b c ys) (fab : Frame a b)
    (fbc : Frame b c) : CallsOk depth fuel a c (xs ++ ys) := by
  refine ⟨?_, ?_⟩
  · rw [List.map_append]
    refine List.Nodup.append hx.1 hy.1 ?_
    intro p hpx hpy
    obtain ⟨cx, hcx, rfl⟩ := List.mem_map.1 hpx
    obtain ⟨cy, hcy, e⟩ := List.mem_map.1 hpy
    have h1 := (hx.2 cx hcx).2.2.2.2.2
    have h2 := (hy.2 cy hcy).2.2.2.2.1
    rw [e] at h2
    exact h1 h2
  · intro e he
    rcases List.mem_append.1 he with h | h
    · obtain ⟨h1, h2, h3, h4, h5, h6⟩ := hx.2 e h
      exact ⟨h1, h2, h3, h4, h5, fbc.frame_coloured _ h6⟩
    · obtain ⟨h1, h2, h3, h4, h5, h6⟩ := hy.2 e h
      exact ⟨h1, h2, h3, h4, frame_uncoloured_back fab _ h5, h6⟩

/-- The calls of one call on a node without value: the call itself, then the
calls of its loop. -/
theorem callsOk_call {depth fuel : Nat} {g g1 : Graph} {self : Nat} {new : List Call}
    (hd : g.DegreeBound) (hself : self < g.length) (hv : (g.deref self).m_value = 0)
    (hf : Frame (Node.assignIfNeeded g self) g1)
    (hnew : CallsOk (depth + 1) fuel (Node.assignIfNeeded g self) g1 new) :
    CallsOk depth (fuel + 1) g g1
      (⟨depth + 1, self, (g.deref self).value,
        ((Node.assignIfNeeded g self).deref self).value⟩ :: new) := by
  have hcol := assignIfNeeded_coloured g hd self hself
  have f0 : Frame g (Node.assignIfNeeded g self) :=
    (Colours.colours_assignIfNeeded g self hself).colours_frame
  refine ⟨?_, ?_⟩
  · rw [List.map_cons, List.nodup_cons]
    refine ⟨?_, hnew.1⟩
    intro hmem
    obtain ⟨c, hc, e⟩ := List.mem_map.1 hmem
    have := (hnew.2 c hc).2.2.2.2.1
    rw [e] at this
    exact hcol this
  · intro c hc
    rcases List.mem_cons.1 hc with rfl | hc
    · refine ⟨hv, Nat.one_le_iff_ne_zero.2 hcol, by simp, by simp, hv, hf.frame_coloured _ hcol⟩
    · obtain ⟨h1, h2, h3, h4, h5, h6⟩ := hnew.2 c hc
      exact ⟨h1, h2, by omega, by omega, frame_uncoloured_back f0 _ h5, h6⟩

theorem foldlM_visitTraced_calls (fuel depth : Nat)
    (ih : ∀ (g g1 : Graph) (self : Nat) (tr : List Call), g.WellFormed → g.DegreeBound →
      self < g.length → (g.deref self).m_value = 0 →
      Node.applyChromaticTraced fuel (depth + 1) g self = some (g1, tr) →
      Frame g g1 ∧ CallsOk depth fuel g g1 tr) :
    ∀ (l : List Nat) (acc : Graph) (t : List Call) (g1 : Graph) (tr : List Call),
      acc.WellFormed → acc.DegreeBound → (∀ n ∈ l, n < acc.length) →
      l.foldlM (visitTraced fuel depth) (acc, t) = some (g1, tr) →
      Frame acc g1 ∧ ∃ new, tr = t ++ new ∧ CallsOk depth fuel acc g1 new := by
  intro l
  induction l with
  | nil =>
    intro acc t g1 tr _ _ _ h
    simp at h
    obtain ⟨rfl, rfl⟩ := h
    exact ⟨Frame.frame_refl _, [], by simp, callsOk_nil _ _ _ _⟩
  | cons n l ihl =>
    intro acc t g1 tr hw hd hl h
    rw [List.foldlM_cons] at h
    cases hv : visitTraced fuel depth (acc, t) n with
    | none => rw [hv] at h; simp at h
    | some r =>
      obtain ⟨acc1, t1⟩ := r
      rw [hv] at h
      simp only [Option.bind_eq_bind, Option.some_bind] at h
      have hn := hl n (List.mem_cons_self _ _)
      have hstep : Frame acc acc1 ∧ ∃ new, t1 = t ++ new ∧ CallsOk depth fuel acc acc1 new := by
        unfold visitTraced at hv
        split_ifs at hv with hc
        · cases hv
          exact ⟨Frame.frame_refl _, [], by simp, callsOk_nil _ _ _ _⟩
        · cases hsub : Node.applyChromaticTraced fuel (depth + 1) acc n with
          | none => rw [hsub] at hv; simp at hv
          | some r1 =>
            obtain ⟨a1, tr1⟩ := r1
            rw [hsub] at hv
            simp only [Option.map_some', Option.some.injEq, Prod.mk.injEq] at hv
            obtain ⟨rfl, rfl⟩ := hv
            obtain ⟨f1, c1⟩ := ih acc a1 n tr1 hw hd hn (by simpa [Node.hasValue] using hc) hsub
            exact ⟨f1, tr1, rfl, c1⟩
      obtain ⟨f1, new1, rfl, c1⟩ := hstep
      obtain ⟨f2, new2, rfl, c2⟩ := ihl acc1 (t ++ new1) g1 tr (f1.frame_wellFormed hw)
        (f1.frame_degreeBound hd)
        (fun m hm => by rw [f1.1]; exact hl m (List.mem_cons_of_mem _ hm)) h
      exact ⟨f1.frame_trans f2, new1 ++ new2, by simp, callsOk_append c1 c2 f1 f2⟩

/-- Every call recorded is made on a node without value and gives it one
before its loop starts, no node is entered twice, and the nesting never
exceeds the depth allowed. -/
theorem applyChromaticTraced_calls (fuel : Nat) :
    ∀ (depth : Nat) (g g1 : Graph) (self : Nat) (tr : List Call), g.WellFormed →
      g.DegreeBound → self < g.length → (g.deref self).m_value = 0 →
      Node.applyChromaticTraced fuel (depth + 1) g self = some (g1, tr) →
      Frame g g1 ∧ CallsOk depth fuel g g1 tr := by
  induction fuel with
  | zero => intro depth g g1 self tr _ _ _ _ h; simp [Node.applyChromaticTraced] at h
  | succ fuel ih =>
    intro depth g g1 self tr hw hd hself hv h
    rw [applyChromaticTraced_succ] at h
    have f0 : Frame g (Node.assignIfNeeded g self) :=
      (Colours.colours_assignIfNeeded g self hself).colours_frame
    obtain ⟨f1, new, rfl, c1⟩ := foldlM_visitTraced_calls fuel (depth + 1) (ih (depth + 1))
      _ _ _ _ _ (f0.frame_wellFormed hw) (f0.frame_degreeBound hd)
      (fun n hn => by rw [f0.1]; exact (wellFormed_iff g).1 hw self n hn) h
    exact ⟨f0.frame_trans f1, callsOk_call hd hself hv f1 c1⟩

/-- Let `S` hold every node reachable from the first node.  Then a nesting
depth of `S.card` is enough for the recursion from the first node, which
returns the graph of `Graph::applyChromatic`, and of the calls made each one is
entered on a node without value, has given it a value of at least 1 when its
loop starts, is nested no deeper than `S.card`, and no node is entered
twice. -/
theorem traversal_returns_within (input : String)
    (hd : (Graph.createGraph input).DegreeBound) (S : Finset Nat)
    (hS : ∀ p, (Graph.createGraph input).Reachable 0 p → p ∈ S) :
    ∃ g1, (Graph.createGraph input).applyChromatic = some g1 ∧
      (0 < (Graph.createGraph input).length →
        ∃ calls, Node.applyChromaticTraced S.card 1 (Graph.createGraph input) 0
            = some (g1, calls) ∧
          (calls.map Call.node).Nodup ∧
          ∀ c ∈ calls, c.before = 0 ∧ 1 ≤ c.after ∧ 1 ≤ c.depth ∧ c.depth ≤ S.card) := by
  have hw := createGraph_wellFormed input
  have hu := (uncoloured_iff _).1 (createGraph_uncoloured input)
  obtain ⟨g1, h1⟩ := graph_applyChromatic_total _ hw hd
  refine ⟨g1, h1, fun hpos => ?_⟩
  have h0S : 0 ∈ S := hS 0 Relation.ReflTransGen.refl
  obtain ⟨g2, h2⟩ := applyChromatic_total S.card (Graph.createGraph input) 0 S hw hd hpos hS (by
    have hsub : (pending S (Graph.createGraph input)).erase 0 ⊆ S.erase 0 :=
      Finset.erase_subset_erase _ (Finset.filter_subset _ _)
    have hle := Finset.card_le_card hsub
    rw [Finset.card_erase_of_mem h0S] at hle
    have : 0 < S.card := Finset.card_pos.2 ⟨0, h0S⟩
    omega)
  have heq : g2 = g1 := by
    unfold Graph.applyChromatic at h1
    rw [if_neg (by
      intro he
      have := List.isEmpty_iff.1 he
      rw [this] at hpos
      simp at hpos)] at h1
    have a := applyChromatic_fuel_mono _ (max S.card (Graph.createGraph input).length) _ _ _
      (le_max_left _ _) h2
    have b := applyChromatic_fuel_mono _ (max S.card (Graph.createGraph input).length) _ _ _
      (le_max_right _ _) h1
    rw [a] at b
    exact Option.some.inj b
  subst heq
  obtain ⟨calls, hcalls⟩ := applyChromaticTraced_of_applyChromatic S.card 1 _ _ 0 h2
  obtain ⟨_, hnd, hall⟩ := applyChromaticTraced_calls S.card 0 _ _ 0 calls hw hd hpos (hu 0) hcalls
  refine ⟨calls, hcalls, hnd, fun c hc => ?_⟩
  obtain ⟨a, b, c1, c2, _, _⟩ := hall c hc
  exact ⟨a, b, by omega, by omega⟩

/-! ### The set of reachable nodes, computed -/

theorem subset_expand (g : Graph) (S : Finset Nat) : S ⊆ expand g S :=
  Finset.subset_union_left

theorem mem_expand {g : Graph} {S : Finset Nat} {q : Nat} :
    q ∈ expand g S ↔ q ∈ S ∨ ∃ p ∈ S, q ∈ (g.deref p).m_neighbours := by
  simp [expand]

theorem iterate_expand_sound (g : Graph) (root : Nat) :
    ∀ k p, p ∈ (expand g)^[k] {root} → g.Reachable root p := by
  intro k
  induction k with
  | zero =>
    intro p hp
    simp only [Function.iterate_zero, id_eq, Finset.mem_singleton] at hp
    subst hp; exact Relation.ReflTransGen.refl
  | succ k ih =>
    intro p hp
    rw [Function.iterate_succ_apply'] at hp
    rcases mem_expand.1 hp with h | ⟨q, hq, hqp⟩
    · exact ih p h
    · exact Relation.ReflTransGen.tail (ih q hq) hqp

theorem iterate_expand_fixed_or_grows (g : Graph) (root : Nat) :
    ∀ k, expand g ((expand g)^[k] {root}) = (expand g)^[k] {root} ∨
      k + 1 ≤ ((expand g)^[k] {root}).card := by
  intro k
  induction k with
  | zero => right; simp
  | succ k ih =>
    rw [Function.iterate_succ_apply']
    by_cases hfix : expand g ((expand g)^[k] {root}) = (expand g)^[k] {root}
    · left; rw [hfix, hfix]
    · rcases ih with h | h
      · exact absurd h hfix
      · right
        have hss : (expand g)^[k] {root} ⊂ expand g ((expand g)^[k] {root}) :=
          Finset.ssubset_iff_subset_ne.2 ⟨subset_expand g _, fun e => hfix e.symm⟩
        have := Finset.card_lt_card hss
        omega

theorem iterate_expand_complete_of_empty (g : Graph) (hg : g.length = 0) (p : Nat)
    (hr : g.Reachable 0 p) : p ∈ reachableFrom g 0 := by
  have hnil : g = [] := List.length_eq_zero.1 hg
  subst hnil
  induction hr with
  | refl => simp [reachableFrom]
  | tail _ hbc _ => simp [Graph.deref, Node.new] at hbc

/-- The computed set is the set of the reachable nodes. -/
theorem mem_reachableFrom_iff (g : Graph) (hw : g.WellFormed) (root : Nat)
    (hroot : root < g.length) (p : Nat) : p ∈ reachableFrom g root ↔ g.Reachable root p := by
  constructor
  · exact iterate_expand_sound g root g.length p
  · intro hr
    have hbound : reachableFrom g root ⊆ Finset.range g.length := by
      intro q hq
      exact Finset.mem_range.2 (reachable_lt hw hroot (iterate_expand_sound g root _ q hq))
    have hcard := Finset.card_le_card hbound
    rw [Finset.card_range] at hcard
    have hfix : expand g (reachableFrom g root) = reachableFrom g root := by
      rcases iterate_expand_fixed_or_grows g root g.length with h | h
      · exact h
      · unfold reachableFrom at hcard; omega
    have hroot_mem : root ∈ reachableFrom g root := by
      unfold reachableFrom
      have : ∀ k, root ∈ (expand g)^[k] {root} := by
        intro k
        induction k with
        | zero => simp
        | succ k ih => rw [Function.iterate_succ_apply']; exact subset_expand g _ ih
      exact this _
    induction hr with
    | refl => exact hroot_mem
    | tail _ hbc ih =>
      rw [← hfix]
      exact mem_expand.2 (Or.inr ⟨_, ih, hbc⟩)

/-- C8: on every graph built by `Graph::createGraph` the traversal started by
`Graph::applyChromatic` returns, cycles and self-links included.  A nesting
depth equal to the number of nodes reachable from the first node is enough for
the recursion of `Node::applyChromatic` from the first node; of the calls it
makes each one is entered on a node without value (`before = 0`) and has given
it a value of at least 1 when its loop over the neighbours starts
(`1 ≤ after`), none is nested deeper than that number, and no node is entered
twice. -/
theorem applyChromatic_terminates (input : String)
    (hd : (Graph.createGraph input).DegreeBound) :
    ∃ g1, (Graph.createGraph input).applyChromatic = some g1 ∧
      (0 < (Graph.createGraph input).length →
        ∃ calls, Node.applyChromaticTraced (reachableFrom (Graph.createGraph input) 0).card 1
            (Graph.createGraph input) 0 = some (g1, calls) ∧
          (calls.map Call.node).Nodup ∧
          ∀ c ∈ calls, c.before = 0 ∧ 1 ≤ c.after ∧ 1 ≤ c.depth ∧
            c.depth ≤ (reachableFrom (Graph.createGraph input) 0).card) := by
  obtain ⟨g1, h1, h2⟩ := traversal_returns_within input hd
    (reachableFrom (Graph.createGraph input) 0) (fun p hp => by
      by_cases hpos : 0 < (Graph.createGraph input).length
      · exact (mem_reachableFrom_iff _ (createGraph_wellFormed input) 0 hpos p).2 hp
      · exact iterate_expand_complete_of_empty _ (by omega) p hp)
  exact ⟨g1, h1, h2⟩

/-- Witness for C8: a graph with a self-link and a cycle, and a node that is
not reachable from the first. -/
theorem applyChromatic_terminates_witness :
    (Graph.createGraph "A:A,B\nB:C\nC:A\nD:A").DegreeBound ∧
    (reachableFrom (Graph.createGraph "A:A,B\nB:C\nC:A\nD:A") 0).card = 3 ∧
    ∃ g1, (Graph.createGraph "A:A,B\nB:C\nC:A\nD:A").applyChromatic = some g1 ∧
      (0 < (Graph.createGraph "A:A,B\nB:C\nC:A\nD:A").length →
        ∃ calls, Node.applyChromaticTraced
            (reachableFrom (Graph.createGraph "A:A,B\nB:C\nC:A\nD:A") 0).card 1
            (Graph.createGraph "A:A,B\nB:C\nC:A\nD:A") 0 = some (g1, calls) ∧
          (calls.map Call.node).Nodup ∧
          ∀ c ∈ calls, c.before = 0 ∧ 1 ≤ c.after ∧ 1 ≤ c.depth ∧
            c.depth ≤ (reachableFrom (Graph.createGraph "A:A,B\nB:C\nC:A\nD:A") 0).card) :=
  ⟨by decide, by decide, applyChromatic_terminates "A:A,B\nB:C\nC:A\nD:A" (by decide)⟩

/-! ### The text, as the specification reads it -/

theorem mem_keepFirst (l : List String) (x : String) : x ∈ keepFirst l ↔ x ∈ l := by
  induction l with
  | nil => simp [keepFirst]
  | cons y l ih =>
    simp only [keepFirst, List.mem_cons, List.mem_filter, ih, decide_eq_true_eq]
    constructor
    · rintro (h | ⟨h, _⟩)
      · exact Or.inl h
      · exact Or.inr h
    · intro h
      by_cases hxy : x = y
      · exact Or.inl hxy
      · rcases h with h | h
        · exact absurd h hxy
        · exact Or.inr ⟨h, hxy⟩

theorem nodup_keepFirst (l : List String) : (keepFirst l).Nodup := by
  induction l with
  | nil => simp [keepFirst]
  | cons y l ih =>
    simp only [keepFirst, List.nodup_cons, List.mem_filter, decide_eq_true_eq]
    exact ⟨fun h => h.2 rfl, ih.filter _⟩

theorem keepFirst_append_singleton (l : List String) (x : String) :
    keepFirst (l ++ [x]) = if x ∈ l then keepFirst l else keepFirst l ++ [x] := by
  induction l with
  | nil => simp [keepFirst]
  | cons y l ih =>
    simp only [List.cons_append, keepFirst, List.mem_cons, List.append_eq]
    rw [ih]
    by_cases hxl : x ∈ l
    · simp [hxl]
    · by_cases hxy : x = y
      · subst hxy
        simp [hxl, List.filter_append]
      · simp [hxl, hxy, List.filter_append]

theorem keepFirst_of_nodup (l : List String) (h : l.Nodup) : keepFirst l = l := by
  induction l with
  | nil => rfl
  | cons y l ih =>
    rw [List.nodup_cons] at h
    simp only [keepFirst, ih h.2]
    congr 1
    rw [List.filter_eq_self]
    intro a ha
    simp only [decide_eq_true_eq]
    rintro rfl
    exact h.1 ha

theorem split_eq_splitOn (sep : Char) (l : List Char) : split sep l = l.splitOn sep := by
  induction l with
  | nil => rfl
  | cons c cs ih =>
    simp only [split, List.splitOn, List.splitOnP_cons, beq_iff_eq]
    rw [ih]
    split_ifs with h
    · rfl
    · cases hs : List.splitOn sep cs with
      | nil => exact absurd hs (List.splitOnP_ne_nil _ _)
      | cons t ts =>
        simp only [List.splitOn] at hs
        rw [hs]
        rfl

/-! ### Fetch-or-create and neighbour insertion, one call at a time -/

theorem deref_append_left (g : Graph) (node : Node) (p : Nat) (h : p < g.length) :
    Graph.deref (g ++ [node]) p = g.deref p := by
  simp [Graph.deref, List.getD_eq_getElem?_getD, List.getElem?_append_left h]

theorem deref_append_length (g : Graph) (node : Node) :
    Graph.deref (g ++ [node]) g.length = node := by
  simp [Graph.deref, List.getD_eq_getElem?_getD]

theorem findNode_some {g : Graph} {name : String} {p : Nat} (h : g.findNode name = some p) :
    p < g.length ∧ (g.deref p).name = name := by
  unfold Graph.findNode at h
  obtain ⟨hp, hname, _⟩ := List.findIdx?_eq_some_iff_getElem.1 h
  refine ⟨hp, ?_⟩
  rw [deref_of_lt g p hp]
  rw [beq_iff_eq] at hname
  exact hname.symm

theorem findNode_none {g : Graph} {name : String} (h : g.findNode name = none) :
    name ∉ g.map Node.name := by
  unfold Graph.findNode at h
  rw [List.findIdx?_eq_none_iff] at h
  intro hmem
  obtain ⟨node, hnode, e⟩ := List.mem_map.1 hmem
  have := h node hnode
  simp [e] at this

theorem findNode_of_nodup {g : Graph} (hnd : (g.map Node.name).Nodup) {p : Nat}
    (hp : p < g.length) : g.findNode (g.deref p).name = some p := by
  cases h : g.findNode (g.deref p).name with
  | none =>
    exact absurd (List.mem_map.2 ⟨g.deref p, deref_mem g p hp, rfl⟩) (findNode_none h)
  | some q =>
    obtain ⟨hq, hname⟩ := findNode_some h
    have hi := List.nodup_iff_injective_get.1 hnd
    have : (⟨q, by simpa using hq⟩ : Fin (g.map Node.name).length)
        = ⟨p, by simpa using hp⟩ := by
      apply hi
      simp only [List.get_eq_getElem, List.getElem_map]
      rw [← deref_of_lt g q hq, ← deref_of_lt g p hp]
      exact hname
    rw [Fin.mk.injEq] at this
    rw [this]

theorem name_injective {g : Graph} (hnd : (g.map Node.name).Nodup) {p q : Nat}
    (hp : p < g.length) (hq : q < g.length) (h : (g.deref p).name = (g.deref q).name) :
    p = q := by
  have h1 := findNode_of_nodup hnd hp
  have h2 := findNode_of_nodup hnd hq
  rw [h, h2] at h1
  exact (Option.some.inj h1).symm

/-- `Graph::getNodeOrCreateIt`, on the names: the name is appended unless it
is there already, the pointer returned is the node of that name, and no node
there before is touched. -/
theorem getNodeOrCreateIt_spec (g : Graph) (name : String) :
    (g.getNodeOrCreateIt name).1.map Node.name =
      (if name ∈ g.map Node.name then g.map Node.name else g.map Node.name ++ [name]) ∧
    (g.getNodeOrCreateIt name).2 < (g.getNodeOrCreateIt name).1.length ∧
    ((g.getNodeOrCreateIt name).1.deref (g.getNodeOrCreateIt name).2).name = name ∧
    (∀ p < g.length, (g.getNodeOrCreateIt name).1.deref p = g.deref p) ∧
    (∀ p, g.length ≤ p → ((g.getNodeOrCreateIt name).1.deref p).m_neighbours = []) := by
  unfold Graph.getNodeOrCreateIt
  cases h : g.findNode name with
  | some q =>
    obtain ⟨hq, hname⟩ := findNode_some h
    have hmem : name ∈ g.map Node.name :=
      List.mem_map.2 ⟨g.deref q, deref_mem g q hq, hname⟩
    refine ⟨by simp [hmem], hq, hname, fun _ _ => rfl, fun p hp => ?_⟩
    simp only
    rw [deref_of_ge g p hp]; rfl
  | none =>
    have hmem := findNode_none h
    refine ⟨by simp [hmem, Node.new, Node.name], by simp, ?_, ?_, fun p hp => ?_⟩
    · simp only
      rw [deref_append_length]; rfl
    · intro p hp
      exact deref_append_left g _ p hp
    · simp only
      rcases Nat.eq_or_lt_of_le hp with e | e
      · rw [← e, deref_append_length]; rfl
      · rw [deref_of_ge _ p (by simp; omega)]; rfl

theorem deref_pushNeighbour_self (g : Graph) (p node : Nat) (h : p < g.length) :
    (g.pushNeighbour p node).deref p =
      { g.deref p with m_neighbours := (g.deref p).m_neighbours ++ [node] } := by
  simp [Graph.deref, Graph.pushNeighbour, List.getD_eq_getElem?_getD, List.getElem?_set, h]

theorem deref_pushNeighbour_ne (g : Graph) (p q node : Nat) (h : q ≠ p) :
    (g.pushNeighbour p node).deref q = g.deref q := by
  simp [Graph.deref, Graph.pushNeighbour, List.getD_eq_getElem?_getD, List.getElem?_set,
    Ne.symm h]

theorem name_pushNeighbour (g : Graph) (p q node : Nat) :
    ((g.pushNeighbour p node).deref q).m_name = (g.deref q).m_name := by
  by_cases hq : q = p
  · subst hq
    by_cases h : q < g.length
    · rw [deref_pushNeighbour_self g q node h]
    · have h1 : g.length ≤ q := Nat.le_of_not_lt h
      rw [deref_of_ge _ _ (by rw [length_pushNeighbour]; exact h1), deref_of_ge _ _ h1]
  · rw [deref_pushNeighbour_ne g p q node hq]

theorem isNeighbour_iff (g : Graph) (self node : Nat) :
    Node.isNeighbour g self node = true ↔ (g.deref node).name ∈ neighbourNames g self := by
  unfold Node.isNeighbour neighbourNames
  simp only [List.any_eq_true, beq_iff_eq, List.mem_map]
  constructor
  · rintro ⟨m, hm, e⟩; exact ⟨m, hm, e.symm⟩
  · rintro ⟨m, hm, e⟩; exact ⟨m, hm, e.symm⟩

theorem map_name_eq_of_deref {g g1 : Graph} (hlen : g1.length = g.length)
    (h : ∀ p, (g1.deref p).m_name = (g.deref p).m_name) : g1.map Node.name = g.map Node.name := by
  apply List.ext_getElem (by simp [hlen])
  intro n h1 h2
  simp only [List.getElem_map]
  have a : n < g1.length := by simpa using h1
  have b : n < g.length := by simpa using h2
  rw [← deref_of_lt g1 n a, ← deref_of_lt g n b]
  exact h n

/-- `Node::addNeighbour`, on the graph: names stay, the other nodes stay, and
the neighbour vector of `self` gets `node` at its end unless it holds a
neighbour of that name already; the flag tells which. -/
theorem addNeighbour_spec (g : Graph) (self node : Nat) (hself : self < g.length) :
    (Node.addNeighbour g self node).1.map Node.name = g.map Node.name ∧
    (∀ p, ((Node.addNeighbour g self node).1.deref p).m_name = (g.deref p).m_name) ∧
    (∀ p, p ≠ self → (Node.addNeighbour g self node).1.deref p = g.deref p) ∧
    ((g.deref node).name ∈ neighbourNames g self →
      Node.addNeighbour g self node = (g, false)) ∧
    ((g.deref node).name ∉ neighbourNames g self →
      (Node.addNeighbour g self node).2 = true ∧
      ((Node.addNeighbour g self node).1.deref self).m_neighbours =
        (g.deref self).m_neighbours ++ [node]) := by
  have hiff := isNeighbour_iff g self node
  unfold Node.addNeighbour
  split_ifs with hn
  · exact ⟨rfl, fun _ => rfl, fun _ _ => rfl, fun _ => rfl, fun h => absurd (hiff.1 hn) h⟩
  · refine ⟨map_name_eq_of_deref (length_pushNeighbour g self node)
      (fun p => name_pushNeighbour g self p node), fun p => name_pushNeighbour g self p node,
      fun p hp => deref_pushNeighbour_ne g self p node hp, fun h => absurd (hiff.2 h) hn,
      fun _ => ⟨rfl, ?_⟩⟩
    simp only
    rw [deref_pushNeighbour_self g self node hself]

/-! ### The loop over the tokens of a line -/

theorem neighbourNames_congr {g g1 : Graph} {p : Nat}
    (h1 : (g1.deref p).m_neighbours = (g.deref p).m_neighbours)
    (h2 : ∀ n ∈ (g.deref p).m_neighbours, (g1.deref n).m_name = (g.deref n).m_name) :
    neighbourNames g1 p = neighbourNames g p := by
  unfold neighbourNames
  rw [h1]
  exact List.map_congr_left (fun n hn => h2 n hn)

theorem neighbourNames_of_ge (g : Graph) (p : Nat) (h : g.length ≤ p) :
    neighbourNames g p = [] := by
  unfold neighbourNames
  rw [deref_of_ge g p h]; rfl

theorem getNodeOrCreateIt_new (g : Graph) (name : String) (p : Nat) (h1 : g.length ≤ p)
    (h2 : p < (g.getNodeOrCreateIt name).1.length) : p = (g.getNodeOrCreateIt name).2 := by
  unfold Graph.getNodeOrCreateIt at h2 ⊢
  cases h : g.findNode name with
  | some q => rw [h] at h2; simp only at h2; omega
  | none => rw [h] at h2; simp at h2 ⊢; omega

theorem addNeighbours_cons (g : Graph) (node : Nat) (t : List Char) (ts : List (List Char)) :
    addNeighbours g node (t :: ts) =
      addNeighbours (Node.addNeighbour (g.getNodeOrCreateIt (String.mk t)).1 node
        (g.getNodeOrCreateIt (String.mk t)).2).1 node ts := rfl

/-- One token: the node of that name is fetched or created and made a
neighbour of the subject unless the subject lists that name already. -/
theorem addToken_spec (g : Graph) (i : Nat) (t : String) (X Y : List String)
    (hw : g.WellFormed) (hi : i < g.length) (hX : g.map Node.name = keepFirst X)
    (hY : neighbourNames g i = keepFirst Y) :
    (Node.addNeighbour (g.getNodeOrCreateIt t).1 i (g.getNodeOrCreateIt t).2).1.WellFormed ∧
    g.length ≤ (Node.addNeighbour (g.getNodeOrCreateIt t).1 i (g.getNodeOrCreateIt t).2).1.length ∧
    (Node.addNeighbour (g.getNodeOrCreateIt t).1 i (g.getNodeOrCreateIt t).2).1.map Node.name
      = keepFirst (X ++ [t]) ∧
    (∀ p < g.length,
      ((Node.addNeighbour (g.getNodeOrCreateIt t).1 i (g.getNodeOrCreateIt t).2).1.deref p).m_name
        = (g.deref p).m_name) ∧
    neighbourNames (Node.addNeighbour (g.getNodeOrCreateIt t).1 i (g.getNodeOrCreateIt t).2).1 i
      = keepFirst (Y ++ [t]) ∧
    (∀ p < g.length, p ≠ i →
      neighbourNames (Node.addNeighbour (g.getNodeOrCreateIt t).1 i (g.getNodeOrCreateIt t).2).1 p
        = neighbourNames g p) ∧
    (∀ p, g.length ≤ p →
      neighbourNames (Node.addNeighbour (g.getNodeOrCreateIt t).1 i (g.getNodeOrCreateIt t).2).1 p
        = []) := by
  obtain ⟨n1, n2, n3, n4, n5⟩ := getNodeOrCreateIt_spec g t
  have hw1 := getNodeOrCreateIt_wellFormed g t hw
  have hle := getNodeOrCreateIt_length_le g t
  generalize hg1 : (g.getNodeOrCreateIt t).1 = g1 at n1 n2 n3 n4 n5 hw1 hle ⊢
  generalize hq : (g.getNodeOrCreateIt t).2 = q at n2 n3 ⊢
  have hi1 : i < g1.length := lt_of_lt_of_le hi hle
  obtain ⟨a1, a2, a3, a4, a5⟩ := addNeighbour_spec g1 i q hi1
  have hw2 := addNeighbour_wellFormed g1 i q hw1 n2
  have hlen2 := length_addNeighbour g1 i q
  generalize hg2 : (Node.addNeighbour g1 i q).1 = g2 at a1 a2 a3 a5 hw2 hlen2 ⊢
  have hnn1 : ∀ p < g.length, neighbourNames g1 p = neighbourNames g p := by
    intro p hp
    apply neighbourNames_congr
    · rw [n4 p hp]
    · intro n hn
      rw [n4 n ((wellFormed_iff g).1 hw p n hn)]
  have hnames1 : g1.map Node.name = keepFirst (X ++ [t]) := by
    rw [n1, keepFirst_append_singleton, hX]
    by_cases hm : t ∈ X
    · rw [if_pos hm, if_pos ((mem_keepFirst X t).2 hm)]
    · rw [if_neg hm, if_neg (fun h => hm ((mem_keepFirst X t).1 h))]
  refine ⟨hw2, by omega, by rw [a1, hnames1], ?_, ?_, ?_, ?_⟩
  · intro p hp
    rw [a2 p, n4 p hp]
  · rw [keepFirst_append_singleton]
    have hY1 : neighbourNames g1 i = keepFirst Y := by rw [hnn1 i hi, hY]
    by_cases hmem : t ∈ Y
    · rw [if_pos hmem]
      have hin : (g1.deref q).name ∈ neighbourNames g1 i := by
        rw [n3, hY1, mem_keepFirst]; exact hmem
      have := a4 hin
      rw [← hg2, this]
      exact hY1
    · rw [if_neg hmem]
      have hnin : (g1.deref q).name ∉ neighbourNames g1 i := by
        rw [n3, hY1, mem_keepFirst]; exact hmem
      obtain ⟨_, hpush⟩ := a5 hnin
      unfold neighbourNames
      rw [hpush, List.map_append, List.map_singleton]
      have e1 : (g2.deref q).name = t := by
        unfold Node.name; rw [a2 q]; exact n3
      have e2 : List.map (fun n => (g2.deref n).name) (g1.deref i).m_neighbours
          = neighbourNames g1 i := by
        unfold neighbourNames
        exact List.map_congr_left (fun n _ => by unfold Node.name; rw [a2 n])
      rw [e1, e2, hY1]
  · intro p hp hpi
    rw [← hnn1 p hp]
    apply neighbourNames_congr
    · rw [a3 p hpi]
    · intro n _; exact a2 n
  · intro p hp
    have hpi : p ≠ i := by omega
    have : neighbourNames g2 p = neighbourNames g1 p :=
      neighbourNames_congr (by rw [a3 p hpi]) (fun n _ => a2 n)
    rw [this]
    unfold neighbourNames
    rw [n5 p hp]; rfl

/-- The loop over the tokens of a line (lines 129-130 of
`Graph::createGraph`). -/
theorem addNeighbours_spec (ts : List (List Char)) :
    ∀ (g : Graph) (i : Nat) (X Y : List String), g.WellFormed → i < g.length →
      g.map Node.name = keepFirst X → neighbourNames g i = keepFirst Y →
      (addNeighbours g i ts).WellFormed ∧ g.length ≤ (addNeighbours g i ts).length ∧
      (addNeighbours g i ts).map Node.name = keepFirst (X ++ ts.map String.mk) ∧
      (∀ p < g.length, ((addNeighbours g i ts).deref p).m_name = (g.deref p).m_name) ∧
      neighbourNames (addNeighbours g i ts) i = keepFirst (Y ++ ts.map String.mk) ∧
      (∀ p < g.length, p ≠ i → neighbourNames (addNeighbours g i ts) p = neighbourNames g p) ∧
      (∀ p, g.length ≤ p → neighbourNames (addNeighbours g i ts) p = []) := by
  induction ts with
  | nil =>
    intro g i X Y hw hi hX hY
    refine ⟨hw, le_refl _, by simpa [addNeighbours] using hX, fun _ _ => rfl,
      by simpa [addNeighbours] using hY, fun _ _ _ => rfl, fun p hp => ?_⟩
    exact neighbourNames_of_ge g p hp
  | cons t ts ih =>
    intro g i X Y hw hi hX hY
    rw [addNeighbours_cons]
    obtain ⟨b1, b2, b3, b4, b5, b6, b7⟩ := addToken_spec g i (String.mk t) X Y hw hi hX hY
    generalize (Node.addNeighbour (g.getNodeOrCreateIt (String.mk t)).1 i
      (g.getNodeOrCreateIt (String.mk t)).2).1 = g2 at b1 b2 b3 b4 b5 b6 b7 ⊢
    obtain ⟨c1, c2, c3, c4, c5, c6, c7⟩ := ih g2 i (X ++ [String.mk t]) (Y ++ [String.mk t]) b1
      (lt_of_lt_of_le hi b2) b3 b5
    refine ⟨c1, le_trans b2 c2, by simpa using c3, ?_, by simpa using c5, ?_, ?_⟩
    · intro p hp
      rw [c4 p (lt_of_lt_of_le hp b2), b4 p hp]
    · intro p hp hpi
      rw [c6 p (lt_of_lt_of_le hp b2) hpi, b6 p hp hpi]
    · intro p hp
      by_cases hp2 : p < g2.length
      · rw [c6 p hp2 (by omega), b7 p hp]
      · exact c7 p (Nat.le_of_not_lt hp2)

/-! ### A line, and the whole text -/

theorem span_colon (line : List Char) :
    line.span (fun c => c != ':') =
      (line.takeWhile (fun c => c ≠ ':'), line.dropWhile (fun c => c ≠ ':')) := by
  rw [List.span_eq_take_drop]
  have e : (fun c : Char => c != ':') = (fun c => decide (c ≠ ':')) := by
    funext c
    by_cases h : c = ':' <;> simp [h]
  rw [e]

theorem dropWhile_colon_eq_nil (line : List Char) :
    line.dropWhile (fun c => c ≠ ':') = [] ↔ ':' ∉ line := by
  rw [List.dropWhile_eq_nil_iff]
  constructor
  · intro h hmem
    have := h ':' hmem
    simp at this
  · intro h c hc
    simp only [ne_eq, decide_not, Bool.not_eq_true', decide_eq_false_iff_not]
    rintro rfl
    exact h hc

/-- The body of the loop over the lines, in the words of the text. -/
theorem addLine_eq (g : Graph) (line : List Char) :
    addLine g line =
      if ':' ∈ line then
        addNeighbours (g.getNodeOrCreateIt (subjectOf line)).1
          (g.getNodeOrCreateIt (subjectOf line)).2
          (((line.dropWhile (fun c => c ≠ ':')).drop 1).splitOn ',')
      else g := by
  unfold addLine
  rw [span_colon]
  cases hd : line.dropWhile (fun c => c ≠ ':') with
  | nil =>
    rw [if_neg ((dropWhile_colon_eq_nil line).1 hd)]
  | cons c part =>
    have hmem : ':' ∈ line := by
      by_contra h
      rw [(dropWhile_colon_eq_nil line).2 h] at hd
      exact List.noConfusion hd
    rw [if_pos hmem]
    simp only [List.drop_succ_cons, List.drop_zero, split_eq_splitOn, subjectOf]

theorem mentionsOf_append (ls : List (List Char)) (line : List Char) :
    mentionsOf (ls ++ [line]) = mentionsOf ls ++ mentionsOfLine line := by
  simp [mentionsOf, List.flatMap_append]

theorem tokensFor_append (ls : List (List Char)) (line : List Char) (name : String) :
    tokensFor (ls ++ [line]) name =
      tokensFor ls name ++ (if ':' ∈ line ∧ subjectOf line = name then tokensOf line else []) := by
  unfold tokensFor
  rw [List.filter_append, List.flatMap_append]
  congr 1
  by_cases h : ':' ∈ line ∧ subjectOf line = name
  · rw [if_pos h]
    simp [List.filter_cons, h]
  · rw [if_neg h]
    simp [List.filter_cons, h]

theorem tokensFor_eq_nil (ls : List (List Char)) (name : String)
    (h : name ∉ mentionsOf ls) : tokensFor ls name = [] := by
  unfold tokensFor
  have : ls.filter (fun line => decide (':' ∈ line ∧ subjectOf line = name)) = [] := by
    rw [List.filter_eq_nil_iff]
    intro line hline hdec
    simp only [decide_eq_true_eq] at hdec
    apply h
    unfold mentionsOf
    rw [List.mem_flatMap]
    refine ⟨line, hline, ?_⟩
    unfold mentionsOfLine
    rw [if_pos hdec.1, hdec.2]
    exact List.mem_cons_self _ _
  rw [this]; rfl

theorem parsedAs_names_nodup {g : Graph} {ls : List (List Char)} (h : ParsedAs g ls) :
    (g.map Node.name).Nodup := by
  rw [h.2.1]; exact nodup_keepFirst _

theorem name_mem_map (g : Graph) (p : Nat) (hp : p < g.length) :
    (g.deref p).name ∈ g.map Node.name :=
  List.mem_map.2 ⟨g.deref p, deref_mem g p hp, rfl⟩

theorem exists_of_name_mem_map (g : Graph) (name : String) (h : name ∈ g.map Node.name) :
    ∃ p, p < g.length ∧ (g.deref p).name = name := by
  obtain ⟨node, hnode, e⟩ := List.mem_map.1 h
  obtain ⟨p, hp, rfl⟩ := exists_deref_of_mem g node hnode
  exact ⟨p, hp, e⟩

/-- One more line: the graph stays the one the specification reads. -/
theorem addLine_parsedAs (g : Graph) (ls : List (List Char)) (line : List Char)
    (h : ParsedAs g ls) : ParsedAs (addLine g line) (ls ++ [line]) := by
  obtain ⟨hw, hnames, hnbrs⟩ := h
  rw [addLine_eq]
  by_cases hc : ':' ∈ line
  · rw [if_pos hc]
    have hml : mentionsOfLine line = subjectOf line :: tokensOf line := by
      unfold mentionsOfLine; rw [if_pos hc]
    obtain ⟨n1, n2, n3, n4, n5⟩ := getNodeOrCreateIt_spec g (subjectOf line)
    have hw1 := getNodeOrCreateIt_wellFormed g (subjectOf line) hw
    have hle := getNodeOrCreateIt_length_le g (subjectOf line)
    have hnew := getNodeOrCreateIt_new g (subjectOf line)
    generalize (g.getNodeOrCreateIt (subjectOf line)).1 = g1 at n1 n2 n3 n4 n5 hw1 hle hnew ⊢
    generalize (g.getNodeOrCreateIt (subjectOf line)).2 = i at n2 n3 hnew ⊢
    have hnames1 : g1.map Node.name = keepFirst (mentionsOf ls ++ [subjectOf line]) := by
      rw [n1, keepFirst_append_singleton, hnames]
      by_cases hm : subjectOf line ∈ mentionsOf ls
      · rw [if_pos hm, if_pos ((mem_keepFirst _ _).2 hm)]
      · rw [if_neg hm, if_neg (fun h => hm ((mem_keepFirst _ _).1 h))]
    have hnd1 : (g1.map Node.name).Nodup := by rw [hnames1]; exact nodup_keepFirst _
    have hnn1 : ∀ p < g.length, neighbourNames g1 p = neighbourNames g p := by
      intro p hp
      apply neighbourNames_congr
      · rw [n4 p hp]
      · intro n hn
        rw [n4 n ((wellFormed_iff g).1 hw p n hn)]
    have hold : ∀ p < g1.length,
        neighbourNames g1 p = keepFirst (tokensFor ls (g1.deref p).name) := by
      intro p hp
      by_cases hpg : p < g.length
      · rw [hnn1 p hpg, n4 p hpg]; exact hnbrs p hpg
      · have hpi := hnew p (Nat.le_of_not_lt hpg) hp
        have hnil : neighbourNames g1 p = [] := by
          unfold neighbourNames; rw [n5 p (Nat.le_of_not_lt hpg)]; rfl
        have hnot : subjectOf line ∉ mentionsOf ls := by
          intro hm
          have hm' : subjectOf line ∈ g.map Node.name := by
            rw [hnames, mem_keepFirst]; exact hm
          rw [if_pos hm'] at n1
          have := congrArg List.length n1
          simp only [List.length_map] at this
          omega
        rw [hnil, hpi, n3, tokensFor_eq_nil ls _ hnot]; rfl
    obtain ⟨c1, c2, c3, c4, c5, c6, c7⟩ := addNeighbours_spec
      (((line.dropWhile (fun c => c ≠ ':')).drop 1).splitOn ',') g1 i
      (mentionsOf ls ++ [subjectOf line]) (tokensFor ls (subjectOf line)) hw1 n2 hnames1
      (by rw [hold i n2, n3])
    have htok : (((line.dropWhile (fun c => c ≠ ':')).drop 1).splitOn ',').map String.mk
        = tokensOf line := rfl
    rw [htok] at c3 c5
    generalize addNeighbours g1 i (((line.dropWhile (fun c => c ≠ ':')).drop 1).splitOn ',')
      = g2 at c1 c2 c3 c4 c5 c6 c7 ⊢
    have hnames2 : g2.map Node.name = keepFirst (mentionsOf (ls ++ [line])) := by
      rw [c3, mentionsOf_append, hml]; simp
    have hnd2 : (g2.map Node.name).Nodup := by rw [hnames2]; exact nodup_keepFirst _
    refine ⟨c1, hnames2, ?_⟩
    intro p hp
    rw [tokensFor_append]
    by_cases hpi : p = i
    · subst hpi
      have hname : (g2.deref p).name = subjectOf line := by
        unfold Node.name; rw [c4 p n2]; exact n3
      rw [c5, hname, if_pos ⟨hc, rfl⟩]
    · by_cases hp1 : p < g1.length
      · have hname : (g2.deref p).name = (g1.deref p).name := by
          unfold Node.name; rw [c4 p hp1]
        have hne : ¬ (':' ∈ line ∧ subjectOf line = (g2.deref p).name) := by
          rintro ⟨_, e⟩
          apply hpi
          apply name_injective hnd1 hp1 n2
          rw [n3, ← hname, e]
        rw [if_neg hne, List.append_nil, c6 p hp1 hpi, hname]
        exact hold p hp1
      · have hge : g1.length ≤ p := Nat.le_of_not_lt hp1
        have hnotin : (g2.deref p).name ∉ g1.map Node.name := by
          intro hm
          obtain ⟨p1, hp1', e⟩ := exists_of_name_mem_map g1 _ hm
          have e2 : (g2.deref p1).name = (g2.deref p).name := by
            rw [← e]; unfold Node.name; rw [c4 p1 hp1']
          have := name_injective hnd2 (lt_of_lt_of_le hp1' c2) hp e2
          omega
        rw [hnames1, mem_keepFirst, List.mem_append, List.mem_singleton] at hnotin
        have hne : ¬ (':' ∈ line ∧ subjectOf line = (g2.deref p).name) := by
          rintro ⟨_, e⟩
          exact hnotin (Or.inr e.symm)
        rw [if_neg hne, List.append_nil, c7 p hge,
          tokensFor_eq_nil ls _ (fun h => hnotin (Or.inl h))]
        rfl
  · rw [if_neg hc]
    have hml : mentionsOfLine line = [] := by
      unfold mentionsOfLine; rw [if_neg hc]
    refine ⟨hw, by rw [mentionsOf_append, hml, List.append_nil]; exact hnames, ?_⟩
    intro p hp
    rw [tokensFor_append, if_neg (fun h => hc h.1), List.append_nil]
    exact hnbrs p hp

theorem foldl_addLine_parsedAs (rest : List (List Char)) :
    ∀ (g : Graph) (ls : List (List Char)), ParsedAs g ls →
      ParsedAs (rest.foldl addLine g) (ls ++ rest) := by
  induction rest with
  | nil => intro g ls h; simpa using h
  | cons line rest ih =>
    intro g ls h
    rw [List.foldl_cons]
    have := ih _ _ (addLine_parsedAs g ls line h)
    simpa using this

/-- `Graph::createGraph` builds the graph the specification reads from the
lines of the text. -/
theorem createGraph_parsedAs (input : String) :
    ParsedAs (Graph.createGraph input) (linesOf input) := by
  have h0 : ParsedAs [] [] :=
    ⟨fun _ h => by simp at h, rfl, fun p hp => by simp at hp⟩
  have := foldl_addLine_parsedAs (split '\n' input.data) [] [] h0
  rw [split_eq_splitOn] at this
  simpa [Graph.createGraph, linesOf, split_eq_splitOn] using this

/-! ### The parsed graph (C11, C12, C14, C15, C16, C20) -/

/-- C11: the vertex sequence of `Graph::createGraph(text)` carries exactly the
names mentioned on the lines that contain `':'` (on each line the subject, then
the `','`-separated tokens from left to right, lines from top to bottom), each
name at its first mention only; so it is unique by name; and every node is
created with value 0. -/
theorem createGraph_vertex_sequence (input : String) :
    (Graph.createGraph input).map Node.name = keepFirst (mentionsOf (linesOf input)) ∧
    ((Graph.createGraph input).map Node.name).Nodup ∧
    (Graph.createGraph input).Uncoloured ∧
    mentionsOf (linesOf "B:A,C\nno separator\nA:B,D") = ["B", "A", "C", "A", "B", "D"] ∧
    (Graph.createGraph "B:A,C\nno separator\nA:B,D").map Node.name = ["B", "A", "C", "D"] :=
  ⟨(createGraph_parsedAs input).2.1, parsedAs_names_nodup (createGraph_parsedAs input),
    createGraph_uncoloured input, by decide, by decide⟩

/-- C12: the neighbours of every node of `Graph::createGraph(text)` are named,
in the order of its neighbour vector, by the `','`-separated tokens after the
first `':'` of the lines whose text before the first `':'` is the name of the
node, verbatim, each at its first occurrence only. -/
theorem createGraph_neighbour_lists (input : String) (p : Nat)
    (hp : p < (Graph.createGraph input).length) :
    neighbourNames (Graph.createGraph input) p =
      keepFirst (tokensFor (linesOf input) ((Graph.createGraph input).deref p).name) :=
  (createGraph_parsedAs input).2.2 p hp

/-- Witness for C12: links are one-directional, `"A:B"` makes B a neighbour of
A and leaves B without neighbour; tokens are not trimmed. -/
theorem createGraph_neighbour_lists_witness :
    (neighbourNames (Graph.createGraph "A:B") 0 = ["B"] ∧
      neighbourNames (Graph.createGraph "A:B") 1 = [] ∧
      neighbourNames (Graph.createGraph "A: B,C ,B\nA:C,D") 0 = [" B", "C ", "B", "C", "D"]) ∧
    neighbourNames (Graph.createGraph "A:B,C\nB:A\nA:D,B") 0 =
      keepFirst (tokensFor (linesOf "A:B,C\nB:A\nA:D,B")
        ((Graph.createGraph "A:B,C\nB:A\nA:D,B").deref 0).name) :=
  ⟨by decide, createGraph_neighbour_lists "A:B,C\nB:A\nA:D,B" 0 (by decide)⟩

/-- C14: `Node::addNeighbour` never creates a duplicate.  When the node has a
neighbour of the name of the given node already, it returns false and changes
nothing; otherwise it puts the given node at the end of the neighbour vector,
leaves every other node alone and returns true.  So no node of
`Graph::createGraph(text)` lists a neighbour name twice; `"A:B,B"` gives A the
single neighbour B. -/
theorem addNeighbour_no_duplicate (g : Graph) (self node : Nat) (hself : self < g.length) :
    ((g.deref node).name ∈ neighbourNames g self →
      Node.addNeighbour g self node = (g, false)) ∧
    ((g.deref node).name ∉ neighbourNames g self →
      (Node.addNeighbour g self node).2 = true ∧
      ((Node.addNeighbour g self node).1.deref self).neighbours =
        (g.deref self).neighbours ++ [node] ∧
      ∀ p, p ≠ self → (Node.addNeighbour g self node).1.deref p = g.deref p) ∧
    (∀ (input : String) (p : Nat), (neighbourNames (Graph.createGraph input) p).Nodup) ∧
    Graph.createGraph "A:B,B" = [⟨"A", 0, [1]⟩, ⟨"B", 0, []⟩] := by
  obtain ⟨_, _, a3, a4, a5⟩ := addNeighbour_spec g self node hself
  refine ⟨a4, fun h => ⟨(a5 h).1, (a5 h).2, a3⟩, ?_, by decide⟩
  intro input p
  by_cases hp : p < (Graph.createGraph input).length
  · rw [(createGraph_parsedAs input).2.2 p hp]
    exact nodup_keepFirst _
  · rw [neighbourNames_of_ge _ p (Nat.le_of_not_lt hp)]
    exact List.nodup_nil

/-- Witness for C14: adding B to A a second time, in the graph of `"A:B"`. -/
theorem addNeighbour_no_duplicate_witness :
    Node.addNeighbour (Graph.createGraph "A:B") 0 1 = (Graph.createGraph "A:B", false) ∧
    (Node.addNeighbour (Graph.createGraph "A:B") 1 0).2 = true ∧
    ((Graph.createGraph "A:B").deref 1).name ∈ neighbourNames (Graph.createGraph "A:B") 0 :=
  ⟨(addNeighbour_no_duplicate (Graph.createGraph "A:B") 0 1 (by decide)).1 (by decide),
    ((addNeighbour_no_duplicate (Graph.createGraph "A:B") 1 0 (by decide)).2.1 (by decide)).1,
    by decide⟩

theorem mem_tokensFor {ls : List (List Char)} {name t : String} :
    t ∈ tokensFor ls name ↔
      ∃ line ∈ ls, ':' ∈ line ∧ subjectOf line = name ∧ t ∈ tokensOf line := by
  unfold tokensFor
  simp only [List.mem_flatMap, List.mem_filter, decide_eq_true_eq]
  constructor
  · rintro ⟨line, ⟨h1, h2, h3⟩, h4⟩; exact ⟨line, h1, h2, h3, h4⟩
  · rintro ⟨line, h1, h2, h3, h4⟩; exact ⟨line, ⟨h1, h2, h3⟩, h4⟩

theorem mem_neighbours_iff_name {g : Graph} (hw : g.WellFormed)
    (hnd : (g.map Node.name).Nodup) {p q : Nat} (hq : q < g.length) :
    q ∈ (g.deref p).m_neighbours ↔ (g.deref q).name ∈ neighbourNames g p := by
  unfold neighbourNames
  rw [List.mem_map]
  constructor
  · intro h; exact ⟨q, h, rfl⟩
  · rintro ⟨n, hn, e⟩
    have hnlt := (wellFormed_iff g).1 hw p n hn
    rw [← name_injective hnd hnlt hq e]
    exact hn

/-- C15, as the code has it: a node of `Graph::createGraph(text)` lists itself
exactly when some line has its name as subject and among its tokens; there is
no guard against it. -/
theorem lists_itself_iff (input : String) (p : Nat)
    (hp : p < (Graph.createGraph input).length) :
    p ∈ ((Graph.createGraph input).deref p).neighbours ↔
      ∃ line ∈ linesOf input, ':' ∈ line ∧
        subjectOf line = ((Graph.createGraph input).deref p).name ∧
        ((Graph.createGraph input).deref p).name ∈ tokensOf line := by
  have h := createGraph_parsedAs input
  unfold Node.neighbours
  rw [mem_neighbours_iff_name h.1 (parsedAs_names_nodup h) hp, h.2.2 p hp, mem_keepFirst,
    mem_tokensFor]

/-- Witness for C15 as amended: in `"A:B\nB:A"` no line names its own subject,
in `"A:B,A"` the line of A does. -/
theorem lists_itself_iff_witness :
    (0 ∉ ((Graph.createGraph "A:B\nB:A").deref 0).neighbours ∧
      0 ∈ ((Graph.createGraph "A:B,A").deref 0).neighbours) ∧
    (0 ∈ ((Graph.createGraph "A:B,A").deref 0).neighbours ↔
      ∃ line ∈ linesOf "A:B,A", ':' ∈ line ∧
        subjectOf line = ((Graph.createGraph "A:B,A").deref 0).name ∧
        ((Graph.createGraph "A:B,A").deref 0).name ∈ tokensOf line) :=
  ⟨by decide, lists_itself_iff "A:B,A" 0 (by decide)⟩

/-- C15 as stated fails: for `"A:A"` the node A is in its own neighbour
list. -/
theorem never_lists_itself_counterexample :
    Graph.createGraph "A:A" = [⟨"A", 0, [0]⟩] ∧
    0 < (Graph.createGraph "A:A").length ∧
    0 ∈ ((Graph.createGraph "A:A").deref 0).neighbours ∧
    (((Graph.createGraph "A:A").deref 0).neighbours.map
      (fun n => ((Graph.createGraph "A:A").deref n).name)) =
        [((Graph.createGraph "A:A").deref 0).name] := by
  decide

theorem frame_map_name {g g1 : Graph} (h : Frame g g1) : g1.map Node.name = g.map Node.name :=
  map_name_eq_of_deref h.1 (fun p => (h.2 p).2.1)

/-- C16: in the graph returned by `Graph::createGraph` every entry of every
neighbour vector is a node of the graph's own vector, the very node found
there under its name; and so it is after `Graph::applyChromatic`. -/
theorem no_dangling_neighbour (input : String)
    (hd : (Graph.createGraph input).DegreeBound) :
    (∀ p n, n ∈ ((Graph.createGraph input).deref p).neighbours →
      n < (Graph.createGraph input).length ∧
      (Graph.createGraph input).findNode ((Graph.createGraph input).deref n).name = some n) ∧
    ∃ g1, (Graph.createGraph input).applyChromatic = some g1 ∧
      ∀ p n, n ∈ (g1.deref p).neighbours →
        n < g1.length ∧ g1.findNode (g1.deref n).name = some n := by
  have h := createGraph_parsedAs input
  have hnd := parsedAs_names_nodup h
  refine ⟨fun p n hn => ?_, ?_⟩
  · have hlt := (wellFormed_iff _).1 h.1 p n hn
    exact ⟨hlt, findNode_of_nodup hnd hlt⟩
  · obtain ⟨g1, h1, hcol, _, _⟩ := graph_applyChromatic_spec _ h.1 hd
    refine ⟨g1, h1, fun p n hn => ?_⟩
    have hf := hcol.colours_frame
    have hlt := (wellFormed_iff _).1 (hf.frame_wellFormed h.1) p n hn
    exact ⟨hlt, findNode_of_nodup (by rw [frame_map_name hf]; exact hnd) hlt⟩

/-- Witness for C16: the triangle with a second component. -/
theorem no_dangling_neighbour_witness :
    (Graph.createGraph "A:B,C\nB:A,C\nC:A,B\nD:E\nE:D").DegreeBound ∧
    ∃ g1, (Graph.createGraph "A:B,C\nB:A,C\nC:A,B\nD:E\nE:D").applyChromatic = some g1 ∧
      ∀ p n, n ∈ (g1.deref p).neighbours →
        n < g1.length ∧ g1.findNode (g1.deref n).name = some n :=
  ⟨by decide, (no_dangling_neighbour "A:B,C\nB:A,C\nC:A,B\nD:E\nE:D" (by decide)).2⟩

/-- C20: empty tokens are not dropped.  For every line with `':'` that has an
empty token after it (the text after the first `':'` is empty, or holds an
empty piece between, before or after `','`), the graph has a node of the
empty name and the node of the subject lists it.  The lines `"A:"`, `"A:B,"`
and `"A:B,,C"` have such a token, and `"A:"` yields the two nodes A and the
nameless one, A listing exactly the latter. -/
theorem empty_token_kept (input : String) (line : List Char)
    (hline : line ∈ linesOf input) (hc : ':' ∈ line) (hempty : "" ∈ tokensOf line) :
    (∃ p q, p < (Graph.createGraph input).length ∧ q < (Graph.createGraph input).length ∧
      ((Graph.createGraph input).deref p).name = subjectOf line ∧
      ((Graph.createGraph input).deref q).name = "" ∧
      q ∈ ((Graph.createGraph input).deref p).neighbours) ∧
    tokensOf "A:".data = [""] ∧ tokensOf "A:B,".data = ["B", ""] ∧
    tokensOf "A:B,,C".data = ["B", "", "C"] ∧
    Graph.createGraph "A:" = [⟨"A", 0, [1]⟩, ⟨"", 0, []⟩] := by
  refine ⟨?_, by decide, by decide, by decide, by decide⟩
  have h := createGraph_parsedAs input
  have hsub : subjectOf line ∈ (Graph.createGraph input).map Node.name := by
    rw [h.2.1, mem_keepFirst]
    unfold mentionsOf
    rw [List.mem_flatMap]
    refine ⟨line, hline, ?_⟩
    unfold mentionsOfLine
    rw [if_pos hc]
    exact List.mem_cons_self _ _
  obtain ⟨p, hp, hname⟩ := exists_of_name_mem_map _ _ hsub
  have hmem : "" ∈ neighbourNames (Graph.createGraph input) p := by
    rw [h.2.2 p hp, mem_keepFirst, mem_tokensFor]
    exact ⟨line, hline, hc, hname.symm, hempty⟩
  unfold neighbourNames at hmem
  obtain ⟨q, hq, e⟩ := List.mem_map.1 hmem
  exact ⟨p, q, hp, (wellFormed_iff _).1 h.1 p q hq, hname, e, hq⟩

/-- Witness for C20: the second line of `"B:A\nA:B,"` ends in an empty
token. -/
theorem empty_token_kept_witness :
    "A:B,".data ∈ linesOf "B:A\nA:B," ∧ "" ∈ tokensOf "A:B,".data ∧
    ∃ p q, p < (Graph.createGraph "B:A\nA:B,").length ∧
      q < (Graph.createGraph "B:A\nA:B,").length ∧
      ((Graph.createGraph "B:A\nA:B,").deref p).name = subjectOf "A:B,".data ∧
      ((Graph.createGraph "B:A\nA:B,").deref q).name = "" ∧
      q ∈ ((Graph.createGraph "B:A\nA:B,").deref p).neighbours :=
  ⟨by decide, by decide,
    (empty_token_kept "B:A\nA:B," "A:B,".data (by decide) (by decide) (by decide)).1⟩

/-! ### Lines without separator (C13) -/

theorem not_mem_of_mem_split (sep : Char) (xs : List Char) :
    ∀ l ∈ split sep xs, sep ∉ l := by
  induction xs with
  | nil => intro l hl; simp [split] at hl; subst hl; simp
  | cons c cs ih =>
    intro l hl
    simp only [split] at hl
    split_ifs at hl with hc
    · rcases List.mem_cons.1 hl with rfl | h
      · simp
      · exact ih l h
    · cases hs : split sep cs with
      | nil => exact absurd hs (split_ne_nil sep cs)
      | cons t ts =>
        rw [hs] at hl ih
        simp only [List.mem_cons] at hl
        rcases hl with rfl | h
        · intro hmem
          rcases List.mem_cons.1 hmem with e | e
          · exact hc e.symm
          · exact ih t (List.mem_cons_self _ _) e
        · exact ih l (List.mem_cons_of_mem _ h)

theorem addLine_of_no_colon (g : Graph) (line : List Char) (h : ':' ∉ line) :
    addLine g line = g := by
  rw [addLine_eq, if_neg h]

theorem foldl_addLine_filter (ls : List (List Char)) :
    ∀ g : Graph, ls.foldl addLine g = (ls.filter (fun line => ':' ∈ line)).foldl addLine g := by
  induction ls with
  | nil => intro g; rfl
  | cons line ls ih =>
    intro g
    by_cases h : ':' ∈ line
    · rw [List.filter_cons_of_pos (by simpa using h), List.foldl_cons, List.foldl_cons, ih]
    · rw [List.filter_cons_of_neg (by simpa using h), List.foldl_cons,
        addLine_of_no_colon g line h, ih]

theorem createGraph_eq_foldl (input : String) :
    Graph.createGraph input = (linesOf input).foldl addLine [] := by
  unfold Graph.createGraph linesOf
  rw [split_eq_splitOn]

/-- C13: lines without `':'` contribute nothing.  `Graph::createGraph` gives
the same graph for a text and for the text with every line lacking `':'`
removed; a text in which no line contains `':'`, the empty text included,
gives the graph without node.  (The parser is a total function: it returns a
graph for every text.) -/
theorem createGraph_skips_plain_lines (input : String) :
    Graph.createGraph input = Graph.createGraph (withoutPlainLines input) ∧
    ((∀ line ∈ linesOf input, ':' ∉ line) → Graph.createGraph input = []) ∧
    Graph.createGraph "" = [] ∧ Graph.createGraph "malformed-line" = [] ∧
    withoutPlainLines "A:B\nmalformed-line\nB:A" = "A:B\nB:A" ∧
    Graph.createGraph "A:B\nmalformed-line\nB:A" = Graph.createGraph "A:B\nB:A" := by
  refine ⟨?_, ?_, by decide, by decide, by decide, by decide⟩
  · rw [createGraph_eq_foldl input, createGraph_eq_foldl (withoutPlainLines input),
      foldl_addLine_filter]
    by_cases hF : (linesOf input).filter (fun line => ':' ∈ line) = []
    · have : linesOf (withoutPlainLines input) = [[]] := by
        unfold withoutPlainLines linesOf
        unfold linesOf at hF
        rw [hF]
        rfl
      rw [this, hF]
      rfl
    · have : linesOf (withoutPlainLines input)
          = (linesOf input).filter (fun line => ':' ∈ line) := by
        unfold withoutPlainLines
        conv_lhs => unfold linesOf
        apply List.splitOn_intercalate _ _ _ hF
        intro l hl
        have hl' : l ∈ linesOf input := List.mem_of_mem_filter hl
        unfold linesOf at hl'
        rw [← split_eq_splitOn] at hl'
        exact not_mem_of_mem_split '\n' _ l hl'
      rw [this]
  · intro h
    rw [createGraph_eq_foldl, foldl_addLine_filter]
    have : (linesOf input).filter (fun line => ':' ∈ line) = [] := by
      rw [List.filter_eq_nil_iff]
      intro line hline
      simpa using h line hline
    rw [this]
    rfl

/-- Witness for C13: a text of three lines, none with `':'`. -/
theorem createGraph_skips_plain_lines_witness :
    (∀ line ∈ linesOf "first\n\nlast, line", ':' ∉ line) ∧
    Graph.createGraph "first\n\nlast, line" = [] :=
  ⟨by decide, (createGraph_skips_plain_lines "first\n\nlast, line").2.1 (by decide)⟩

/-! ### Undirected input (C18) -/

/-- C18: when the parsed graph has symmetric adjacency and no node lists
itself, then after `Graph::applyChromatic` every node reachable from the first
node and every neighbour of it carry different values, none of them 0: the
colouring is proper on the component of the first node. -/
theorem undirected_component_proper (input : String)
    (hd : (Graph.createGraph input).DegreeBound)
    (hsym : Undirected (Graph.createGraph input)) :
    ∃ g1, (Graph.createGraph input).applyChromatic = some g1 ∧
      ∀ u v, u < (Graph.createGraph input).length → (Graph.createGraph input).Reachable 0 u →
        v ∈ ((Graph.createGraph input).deref u).neighbours →
        (g1.deref u).value ≠ 0 ∧ (g1.deref v).value ≠ 0 ∧
        (g1.deref u).value ≠ (g1.deref v).value := by
  obtain ⟨g1, h1, hcol, hc, h0⟩ :=
    graph_applyChromatic_spec _ (createGraph_wellFormed input) hd
  refine ⟨g1, h1, fun u v hu hr hvu => ?_⟩
  have hun := createGraph_uncoloured input
  have hpos : 0 < (Graph.createGraph input).length := by omega
  have hP := colours_invariant MutualProper mutualProper_step hcol hd
    (mutualProper_of_uncoloured _ hun)
  have hf := hcol.colours_frame
  obtain ⟨hne, hback⟩ := hsym u hu v hvu
  have cu := closed_reachable hun hc (h0 hpos).1 hr
  have cv := closed_reachable hun hc (h0 hpos).1 (Relation.ReflTransGen.tail hr hvu)
  refine ⟨cu, cv, ?_⟩
  exact hP u v (fun e => hne e.symm) (by rw [(hf.2 u).1]; exact hvu)
    (by rw [(hf.2 v).1]; exact hback) cu cv

set_option maxRecDepth 4000 in
/-- Witness for C18: a cycle of four nodes with a chord, and a second
component. -/
theorem undirected_component_proper_witness :
    (Graph.createGraph "A:B,D\nB:A,C,D\nC:B,D\nD:C,A,B\nX:Y\nY:X").DegreeBound ∧
    Undirected (Graph.createGraph "A:B,D\nB:A,C,D\nC:B,D\nD:C,A,B\nX:Y\nY:X") ∧
    ∃ g1, (Graph.createGraph "A:B,D\nB:A,C,D\nC:B,D\nD:C,A,B\nX:Y\nY:X").applyChromatic
        = some g1 ∧
      ∀ u v, u < (Graph.createGraph "A:B,D\nB:A,C,D\nC:B,D\nD:C,A,B\nX:Y\nY:X").length →
        (Graph.createGraph "A:B,D\nB:A,C,D\nC:B,D\nD:C,A,B\nX:Y\nY:X").Reachable 0 u →
        v ∈ ((Graph.createGraph "A:B,D\nB:A,C,D\nC:B,D\nD:C,A,B\nX:Y\nY:X").deref u).neighbours →
        (g1.deref u).value ≠ 0 ∧ (g1.deref v).value ≠ 0 ∧
        (g1.deref u).value ≠ (g1.deref v).value :=
  ⟨by decide, by decide,
    undirected_component_proper "A:B,D\nB:A,C,D\nC:B,D\nD:C,A,B\nX:Y\nY:X" (by decide)
      (by decide)⟩

/-! ### A bound on the values (C19) -/

theorem le_maxDegree (g : Graph) : ∀ node ∈ g, node.m_neighbours.length ≤ maxDegree g := by
  induction g with
  | nil => intro node h; simp at h
  | cons a l ih =>
    intro node h
    simp only [maxDegree, List.map_cons, List.foldr_cons]
    rcases List.mem_cons.1 h with rfl | h
    · exact le_max_left _ _
    · exact le_trans (ih node h) (le_max_right _ _)

theorem valuesBounded_step (g : Graph) (p : Nat) (hd : g.DegreeBound) (hP : ValuesBounded g)
    (hp : p < g.length) (_hv : (g.deref p).m_value = 0) :
    ValuesBounded (g.setValue p (Node.minimumValue g p)) := by
  intro q
  rw [neighbours_setValue]
  by_cases hq : q = p
  · subst hq
    rw [value_setValue_self g q _ hp]
    exact (minimumValue_spec g hd q).2.2
  · rw [deref_setValue_ne g p q _ hq]
    exact hP q

theorem valueSet_subset_range (g : Graph) (h : ValuesBounded g) :
    valueSet g ⊆ Finset.range (maxDegree g + 2) := by
  intro v hv
  simp only [valueSet, List.mem_toFinset, List.mem_map] at hv
  obtain ⟨node, hnode, rfl⟩ := hv
  obtain ⟨p, _, rfl⟩ := exists_deref_of_mem g node hnode
  have h1 := h p
  have h2 := le_maxDegree g _ hnode
  rw [Finset.mem_range]
  simp only [Node.value]
  omega

/-- C19: after `Graph::createGraph` and `Graph::applyChromatic` the value of
every node is at most the length of its neighbour vector plus 1; hence
`Graph::nbrUniqueColor` is at most the largest such length plus 2, and plus 1
when no node is left without value. -/
theorem value_le_degree_succ (input : String)
    (hd : (Graph.createGraph input).DegreeBound) :
    ∃ g1, (Graph.createGraph input).applyChromatic = some g1 ∧
      (∀ p, (g1.deref p).value ≤ (g1.deref p).neighbours.length + 1) ∧
      g1.nbrUniqueColor ≤ maxDegree g1 + 2 ∧
      ((∀ node ∈ g1, node.value ≠ 0) → g1.nbrUniqueColor ≤ maxDegree g1 + 1) := by
  obtain ⟨g1, h1, hcol, _, _⟩ :=
    graph_applyChromatic_spec _ (createGraph_wellFormed input) hd
  have hun := (uncoloured_iff _).1 (createGraph_uncoloured input)
  have hP : ValuesBounded g1 := colours_invariant ValuesBounded valuesBounded_step hcol hd
    (fun p => by rw [hun p]; exact Nat.zero_le _)
  have hsub := valueSet_subset_range g1 hP
  refine ⟨g1, h1, hP, ?_, ?_⟩
  · rw [nbrUniqueColor_eq_card]
    have := Finset.card_le_card hsub
    rwa [Finset.card_range] at this
  · intro hall
    rw [nbrUniqueColor_eq_card]
    have hsub' : valueSet g1 ⊆ (Finset.range (maxDegree g1 + 2)).erase 0 := by
      intro v hv
      rw [Finset.mem_erase]
      refine ⟨?_, hsub hv⟩
      rintro rfl
      simp only [valueSet, List.mem_toFinset, List.mem_map] at hv
      obtain ⟨node, hnode, e⟩ := hv
      exact hall node hnode e
    have := Finset.card_le_card hsub'
    rw [Finset.card_erase_of_mem (Finset.mem_range.2 (by omega)), Finset.card_range] at this
    omega

/-- Witness for C19: the triangle with a second component, and the
triangle. -/
theorem value_le_degree_succ_witness :
    (Graph.createGraph "A:B,C\nB:A,C\nC:A,B\nD:E\nE:D").DegreeBound ∧
    (Graph.createGraph "A:B,C\nB:A,C\nC:A,B").applyChromatic.map
      (fun g1 => (g1.nbrUniqueColor, maxDegree g1)) = some (3, 2) ∧
    ∃ g1, (Graph.createGraph "A:B,C\nB:A,C\nC:A,B\nD:E\nE:D").applyChromatic = some g1 ∧
      (∀ p, (g1.deref p).value ≤ (g1.deref p).neighbours.length + 1) ∧
      g1.nbrUniqueColor ≤ maxDegree g1 + 2 ∧
      ((∀ node ∈ g1, node.value ≠ 0) → g1.nbrUniqueColor ≤ maxDegree g1 + 1) :=
  ⟨by decide, by decide,
    value_le_degree_succ "A:B,C\nB:A,C\nC:A,B\nD:E\nE:D" (by decide)⟩

/-! ### What a call changes (C17) -/

theorem callsExact_nil (g : Graph) : CallsExact g g [] :=
  ⟨fun c hc => by simp at hc, fun p h0 h1 => absurd h0 h1⟩

theorem callsExact_append {a b c : Graph} {xs ys : List Call} (hx : CallsExact a b xs)
    (hy : CallsExact b c ys) (fbc : Frame b c) : CallsExact a c (xs ++ ys) := by
  refine ⟨?_, ?_⟩
  · intro e he
    rcases List.mem_append.1 he with h | h
    · obtain ⟨h1, h2⟩ := hx.1 e h
      refine ⟨?_, h2⟩
      rw [(fbc.2 e.node).2.2 (by rw [← h1]; exact h2)]
      exact h1
    · exact hy.1 e h
  · intro p h0 h1
    rw [List.map_append, List.mem_append]
    by_cases hb : (b.deref p).m_value = 0
    · exact Or.inr (hy.2 p hb h1)
    · exact Or.inl (hx.2 p h0 hb)

/-- The record of a call: the call itself, then the calls of its loop. -/
theorem applyChromaticTraced_shape (fuel depth : Nat) (g g1 : Graph) (self : Nat)
    (tr : List Call) (hw : g.WellFormed) (hd : g.DegreeBound) (hself : self < g.length)
    (h : Node.applyChromaticTraced (fuel + 1) depth g self = some (g1, tr)) :
    Frame (Node.assignIfNeeded g self) g1 ∧
    ∃ new, tr = ⟨depth, self, (g.deref self).value,
        ((Node.assignIfNeeded g self).deref self).value⟩ :: new ∧
      CallsOk depth fuel (Node.assignIfNeeded g self) g1 new := by
  rw [applyChromaticTraced_succ] at h
  have f0 : Frame g (Node.assignIfNeeded g self) :=
    (Colours.colours_assignIfNeeded g self hself).colours_frame
  obtain ⟨f1, new, rfl, c1⟩ := foldlM_visitTraced_calls fuel depth
    (applyChromaticTraced_calls fuel depth) _ _ _ _ _ (f0.frame_wellFormed hw)
    (f0.frame_degreeBound hd)
    (fun n hn => by rw [f0.1]; exact (wellFormed_iff g).1 hw self n hn) h
  exact ⟨f1, new, rfl, c1⟩

theorem foldlM_visitTraced_exact (fuel depth : Nat)
    (ih : ∀ (g g1 : Graph) (self : Nat) (tr : List Call), g.WellFormed → g.DegreeBound →
      self < g.length → Node.applyChromaticTraced fuel (depth + 1) g self = some (g1, tr) →
      CallsExact g g1 tr) :
    ∀ (l : List Nat) (acc : Graph) (t : List Call) (g1 : Graph) (tr : List Call),
      acc.WellFormed → acc.DegreeBound → (∀ n ∈ l, n < acc.length) →
      l.foldlM (visitTraced fuel depth) (acc, t) = some (g1, tr) →
      ∃ new, tr = t ++ new ∧ CallsExact acc g1 new := by
  intro l
  induction l with
  | nil =>
    intro acc t g1 tr _ _ _ h
    simp at h
    obtain ⟨rfl, rfl⟩ := h
    exact ⟨[], by simp, callsExact_nil _⟩
  | cons n l ihl =>
    intro acc t g1 tr hw hd hl h
    rw [List.foldlM_cons] at h
    cases hv : visitTraced fuel depth (acc, t) n with
    | none => rw [hv] at h; simp at h
    | some r =>
      obtain ⟨acc1, t1⟩ := r
      rw [hv] at h
      simp only [Option.bind_eq_bind, Option.some_bind] at h
      have hn := hl n (List.mem_cons_self _ _)
      have hstep : Frame acc acc1 ∧ ∃ new, t1 = t ++ new ∧ CallsExact acc acc1 new := by
        unfold visitTraced at hv
        split_ifs at hv with hc
        · cases hv
          exact ⟨Frame.frame_refl _, [], by simp, callsExact_nil _⟩
        · cases hsub : Node.applyChromaticTraced fuel (depth + 1) acc n with
          | none => rw [hsub] at hv; simp at hv
          | some r1 =>
            obtain ⟨a1, tr1⟩ := r1
            rw [hsub] at hv
            simp only [Option.map_some', Option.some.injEq, Prod.mk.injEq] at hv
            obtain ⟨rfl, rfl⟩ := hv
            have f1 := (applyChromaticTraced_calls fuel depth acc a1 n tr1 hw hd hn
              (by simpa [Node.hasValue] using hc) hsub).1
            exact ⟨f1, tr1, rfl, ih acc a1 n tr1 hw hd hn hsub⟩
      obtain ⟨f1, new1, rfl, c1⟩ := hstep
      have hw1 := f1.frame_wellFormed hw
      have hd1 := f1.frame_degreeBound hd
      have hl1 : ∀ m ∈ l, m < acc1.length :=
        fun m hm => by rw [f1.1]; exact hl m (List.mem_cons_of_mem _ hm)
      obtain ⟨new2, rfl, c2⟩ := ihl acc1 (t ++ new1) g1 tr hw1 hd1 hl1 h
      have f2 := (foldlM_visitTraced_calls fuel depth (applyChromaticTraced_calls fuel depth)
        l acc1 (t ++ new1) g1 _ hw1 hd1 hl1 h).1
      exact ⟨new1 ++ new2, by simp, callsExact_append c1 c2 f2⟩

/-- The record of a call tells the final value of every node entered, and it
holds every node the call has coloured. -/
theorem applyChromaticTraced_exact (fuel : Nat) :
    ∀ (depth : Nat) (g g1 : Graph) (self : Nat) (tr : List Call), g.WellFormed →
      g.DegreeBound → self < g.length →
      Node.applyChromaticTraced fuel depth g self = some (g1, tr) → CallsExact g g1 tr := by
  induction fuel with
  | zero => intro depth g g1 self tr _ _ _ h; simp [Node.applyChromaticTraced] at h
  | succ fuel ih =>
    intro depth g g1 self tr hw hd hself h
    obtain ⟨f1, new, rfl, _⟩ := applyChromaticTraced_shape fuel depth g g1 self tr hw hd hself h
    rw [applyChromaticTraced_succ] at h
    have f0 : Frame g (Node.assignIfNeeded g self) :=
      (Colours.colours_assignIfNeeded g self hself).colours_frame
    obtain ⟨new', hnew, c1⟩ := foldlM_visitTraced_exact fuel depth (ih (depth + 1)) _ _ _ _ _
      (f0.frame_wellFormed hw) (f0.frame_degreeBound hd)
      (fun n hn => by rw [f0.1]; exact (wellFormed_iff g).1 hw self n hn) h
    have hnn : new' = new := by simpa using hnew.symm
    subst hnn
    have hcol := assignIfNeeded_coloured g hd self hself
    refine ⟨?_, ?_⟩
    · intro c hc
      rcases List.mem_cons.1 hc with rfl | hc
      · exact ⟨((f1.2 self).2.2 hcol).symm, hcol⟩
      · exact c1.1 c hc
    · intro p h0 h1
      rw [List.map_cons, List.mem_cons]
      by_cases hp : p = self
      · exact Or.inl hp
      · right
        refine c1.2 p ?_ h1
        rw [assignIfNeeded_ne g self p hp]; exact h0

theorem frame_map_neighbours {g g1 : Graph} (h : Frame g g1) :
    g1.map Node.neighbours = g.map Node.neighbours := by
  apply List.ext_getElem (by simp [h.1])
  intro n h1 h2
  simp only [List.getElem_map]
  have a : n < g1.length := by simpa using h1
  have b : n < g.length := by simpa using h2
  rw [← deref_of_lt g1 n a, ← deref_of_lt g n b]
  exact (h.2 n).1

/-- C17: `Graph::applyChromatic` changes nothing but values of nodes that had
none.  On every well-formed graph it returns a graph with the same names and
the same neighbour vectors, in the same order; every node that had a value
keeps it; every node whose value changes had value 0 and gets a value of at
least 1; and in the record of the calls made no node is entered twice, each
call finds the value its node had before and leaves the value it has after,
so that every node whose value changes is assigned by exactly one call. -/
theorem applyChromatic_changes_only_values (g : Graph) (hw : g.WellFormed)
    (hd : g.DegreeBound) :
    ∃ g1, g.applyChromatic = some g1 ∧
      g1.map Node.name = g.map Node.name ∧
      g1.map Node.neighbours = g.map Node.neighbours ∧
      (∀ p, (g.deref p).value ≠ 0 → (g1.deref p).value = (g.deref p).value) ∧
      (∀ p, (g1.deref p).value ≠ (g.deref p).value →
        (g.deref p).value = 0 ∧ 1 ≤ (g1.deref p).value) ∧
      (0 < g.length →
        ∃ calls, Node.applyChromaticTraced g.length 1 g 0 = some (g1, calls) ∧
          (calls.map Call.node).Nodup ∧
          (∀ c ∈ calls, c.before = (g.deref c.node).value ∧
            c.after = (g1.deref c.node).value) ∧
          ∀ p, (g1.deref p).value ≠ (g.deref p).value →
            ∃ c ∈ calls, c.node = p ∧ c.before = 0 ∧ c.after = (g1.deref p).value ∧
              ∀ c1 ∈ calls, c1.node = p → c1 = c) := by
  obtain ⟨g1, h1, hcol, _, _⟩ := graph_applyChromatic_spec g hw hd
  have hf := hcol.colours_frame
  have hchange : ∀ p, (g1.deref p).value ≠ (g.deref p).value →
      (g.deref p).value = 0 ∧ 1 ≤ (g1.deref p).value := by
    intro p hne
    have h0 : (g.deref p).m_value = 0 := by
      by_contra h
      exact hne ((hf.2 p).2.2 h)
    refine ⟨h0, Nat.one_le_iff_ne_zero.2 ?_⟩
    intro h
    apply hne
    simp only [Node.value] at h ⊢
    rw [h, h0]
  refine ⟨g1, h1, frame_map_name hf, frame_map_neighbours hf, fun p hp => (hf.2 p).2.2 hp,
    hchange, fun hpos => ?_⟩
  have hrun : Node.applyChromatic g.length g 0 = some g1 := by
    unfold Graph.applyChromatic at h1
    rw [if_neg (by
      intro he
      have := List.isEmpty_iff.1 he
      rw [this] at hpos
      simp at hpos)] at h1
    exact h1
  obtain ⟨calls, hcalls⟩ := applyChromaticTraced_of_applyChromatic g.length 1 g g1 0 hrun
  obtain ⟨k, hk⟩ : ∃ k, g.length = k + 1 := ⟨g.length - 1, by omega⟩
  have hexact := applyChromaticTraced_exact g.length 1 g g1 0 calls hw hd hpos hcalls
  rw [hk] at hcalls
  obtain ⟨_, new, hshape, hok⟩ := applyChromaticTraced_shape k 1 g g1 0 calls hw hd hpos hcalls
  rw [← hk] at hcalls
  have f0 : Frame g (Node.assignIfNeeded g 0) :=
    (Colours.colours_assignIfNeeded g 0 hpos).colours_frame
  have hnd : (calls.map Call.node).Nodup := by
    rw [hshape, List.map_cons, List.nodup_cons]
    refine ⟨?_, hok.1⟩
    intro hmem
    obtain ⟨c, hc, e⟩ := List.mem_map.1 hmem
    have := (hok.2 c hc).2.2.2.2.1
    rw [e] at this
    exact assignIfNeeded_coloured g hd 0 hpos this
  have hbefore : ∀ c ∈ calls, c.before = (g.deref c.node).value := by
    intro c hc
    rw [hshape] at hc
    rcases List.mem_cons.1 hc with rfl | hc
    · rfl
    · obtain ⟨b0, _, _, _, b5, _⟩ := hok.2 c hc
      simp only [Node.value]
      rw [b0, frame_uncoloured_back f0 _ b5]
  refine ⟨calls, hcalls, hnd, fun c hc => ⟨hbefore c hc, (hexact.1 c hc).1⟩, fun p hne => ?_⟩
  obtain ⟨h0, h1'⟩ := hchange p hne
  have hmem := hexact.2 p h0 (by simp only [Node.value] at h1'; omega)
  obtain ⟨c, hc, e⟩ := List.mem_map.1 hmem
  refine ⟨c, hc, e, ?_, ?_, ?_⟩
  · rw [hbefore c hc, e]; exact h0
  · rw [(hexact.1 c hc).1, e]; rfl
  · intro c1 hc1 e1
    exact List.inj_on_of_nodup_map hnd hc1 hc (by rw [e1, e])

/-- Witness for C17: a path of three nodes, as parsed. -/
theorem applyChromatic_changes_only_values_witness :
    (Graph.createGraph "A:B\nB:A,C\nC:B").WellFormed ∧
    (Graph.createGraph "A:B\nB:A,C\nC:B").DegreeBound ∧
    Node.applyChromaticTraced 3 1 (Graph.createGraph "A:B\nB:A,C\nC:B") 0 =
      some ([⟨"A", 1, [1]⟩, ⟨"B", 2, [0, 2]⟩, ⟨"C", 1, [1]⟩],
        [⟨1, 0, 0, 1⟩, ⟨2, 1, 0, 2⟩, ⟨3, 2, 0, 1⟩]) ∧
    ∃ g1, (Graph.createGraph "A:B\nB:A,C\nC:B").applyChromatic = some g1 ∧
      g1.map Node.name = (Graph.createGraph "A:B\nB:A,C\nC:B").map Node.name ∧
      g1.map Node.neighbours = (Graph.createGraph "A:B\nB:A,C\nC:B").map Node.neighbours :=
  ⟨by decide, by decide, by decide,
    let ⟨g1, h1, h2, h3, _⟩ :=
      applyChromatic_changes_only_values (Graph.createGraph "A:B\nB:A,C\nC:B")
        (by decide) (by decide)
    ⟨g1, h1, h2, h3⟩⟩

end GraphChromatic
